import Mathlib

/-!
Shallow embedding of `postcactus/timeseries.py` (time-series data model,
segment merging, phase unwrapping, resampling and the spectral bridge).

Numbers: the Python code works with floating-point arrays; the embedding
idealises them as exact rationals (and real numbers where π is involved,
in `unfold_phase` and the Fourier transform).  `np.allclose` is modelled
as exact equality, consistent with the exact-arithmetic idealisation.
-/

/-- Errors raised by the embedded code.  `valueError` models Python's
`ValueError` (with the message raised by the source); `indexError` models
an out-of-bounds array access (`IndexError`). -/
inductive PErr where
  | valueError (msg : String)
  | indexError
deriving DecidableEq

/-- The `TimeSeries` data model: paired arrays of times and values
(`self.t`, `self.y`).  The value array is modelled as real-valued
(rationals); the complex-valued case is orthogonal to every claim except
the spectral bridge, where the values are cast into ℂ.  Validation is
performed by `mkTimeSeries` below, mirroring `TimeSeries.__init__`. -/
structure TimeSeries where
  t : List ℚ
  y : List ℚ
deriving DecidableEq

/-- Adjacent differences `t[1:] - t[:-1]` (`zipWith` truncates to the
shorter list, so pairing `t.tail` with `t` matches pairing with
`t[:-1]`). -/
def diffs (t : List ℚ) : List ℚ :=
  List.zipWith (fun a b => a - b) t.tail t

/-- Embeds `TimeSeries.__init__`: when `len(t) > 1`, reject with
`ValueError('Time not monotonically increasing')` if `dt.min() <= 0`
(equivalently: some adjacent difference is non-positive); otherwise the
check is skipped and the series is built. -/
def mkTimeSeries (t y : List ℚ) : Except PErr TimeSeries :=
  if 1 < t.length then
    if (diffs t).any (fun d => decide (d ≤ 0)) then
      .error (.valueError "Time not monotonically increasing")
    else .ok ⟨t, y⟩
  else .ok ⟨t, y⟩

/-- Embeds the property `tmin`, i.e. `self.t[0]`.  Series are non-empty by
the data-model invariant (length ≥ 1), so the default is never reached on
well-formed input. -/
def TimeSeries.tmin (s : TimeSeries) : ℚ := s.t.headD 0

/-- Embeds the property `tmax`, i.e. `self.t[-1]`. -/
def TimeSeries.tmax (s : TimeSeries) : ℚ := s.t.getLastD 0

/-- Embeds the property `time_length = tmax - tmin`. -/
def TimeSeries.time_length (s : TimeSeries) : ℚ := s.tmax - s.tmin

/-- Embeds the property `dt`: `dt = self.t[1:] - self.t[:-1]; dt0 = dt[0]`
(an out-of-bounds access when `dt` is empty, i.e. an `IndexError`), then
`ValueError("Timeseries is not regularly sampled")` unless
`np.allclose(dt, dt0)` (modelled as exact equality of every difference
with the first). -/
def TimeSeries.dt (s : TimeSeries) : Except PErr ℚ :=
  match diffs s.t with
  | [] => .error .indexError
  | d0 :: rest =>
    if (d0 :: rest).all (fun d => decide (d = d0)) then .ok d0
    else .error (.valueError "Timeseries is not regularly sampled")

/-- Embeds `np.linspace(a, b, n)`: `n` evenly spaced points from `a` to
`b` inclusive (`[a]` when `n = 1`, `[]` when `n = 0`). -/
def linspace (a b : ℚ) (n : ℕ) : List ℚ :=
  match n with
  | 0 => []
  | 1 => [a]
  | _ => (List.range n).map (fun i : ℕ => a + (i : ℚ) * (b - a) / ((n : ℚ) - 1))

/-- Modelled from the spec: the value of the piecewise-linear interpolant
through the sample pairs at the query point.  The source delegates
interpolation to the external base class (`BaseSeries.resampled`, not in
the repository); the spec (§6) specifies only the contract
`interpolate(x_old, y_old, x_new) -> y_new`, realised here as linear
interpolation between bracketing samples. -/
def interpPairs : List (ℚ × ℚ) → ℚ → ℚ
  | [], _ => 0
  | [p], _ => p.2
  | p :: q :: rest, x =>
    if x ≤ q.1 then p.2 + (q.2 - p.2) * (x - p.1) / (q.1 - p.1)
    else interpPairs (q :: rest) x

/-- Modelled from the spec: interpolating at a single point; points
outside the series' domain are rejected with a domain error (§4.5: a call
whose grid leaves the common domain "must be rejected with a domain
error"). -/
def interpAt (s : TimeSeries) (x : ℚ) : Except PErr ℚ :=
  if x < s.tmin ∨ s.tmax < x then
    .error (.valueError "Interpolation point outside the domain")
  else .ok (interpPairs (s.t.zip s.y) x)

/-- Monadic map over `Except`, used to model element-wise operations that
propagate the first failure. -/
def mapExcept {ε α β : Type} (f : α → Except ε β) : List α → Except ε (List β)
  | [] => .ok []
  | a :: l => do
    let b ← f a
    let bs ← mapExcept f l
    .ok (b :: bs)

/-- Modelled from the spec: `BaseSeries.resampled` (external collaborator,
not in the repository) — evaluate the interpolant at every new time and
construct a new series on those times, which runs the validating
constructor. -/
def resampled (s : TimeSeries) (newt : List ℚ) : Except PErr TimeSeries := do
  let vals ← mapExcept (interpAt s) newt
  mkTimeSeries newt vals

/-- Embeds `TimeSeries.regular_resampled`: resample onto
`np.linspace(tmin, tmax, len(self))`. -/
def regular_resampled (s : TimeSeries) : Except PErr TimeSeries :=
  resampled s (linspace s.tmin s.tmax s.t.length)

/-- Embeds `TimeSeries.fixed_frequency_resampled`: `dt = 1/frequency`;
`ValueError("Frequency too short for resampling")` when
`dt > time_length`; otherwise resample at
`tmin + np.arange(0, n + 1) * dt` with `n = floor(time_length / dt)`. -/
def fixed_frequency_resampled (s : TimeSeries) (frequency : ℚ) :
    Except PErr TimeSeries :=
  let dt := 1 / frequency
  if s.time_length < dt then
    .error (.valueError "Frequency too short for resampling")
  else
    let n : ℤ := ⌊s.time_length / dt⌋
    resampled s ((List.range (n + 1).toNat).map (fun k : ℕ => s.tmin + (k : ℚ) * dt))

/-- Applies a boolean mask to a list (numpy's `arr[msk]`). -/
def applyMask {α : Type} : List Bool → List α → List α
  | b :: bs, a :: as => if b then a :: applyMask bs as else applyMask bs as
  | _, _ => []

/-- Decidable equality on `Except`, so that concrete runs of the embedded
fallible operations can be checked by `decide`. -/
instance {ε α : Type} [DecidableEq ε] [DecidableEq α] :
    DecidableEq (Except ε α) := fun x z =>
  match x, z with
  | .ok a, .ok b =>
    if h : a = b then isTrue (by rw [h])
    else isFalse (by intro hh; cases hh; exact h rfl)
  | .error e, .error f =>
    if h : e = f then isTrue (by rw [h])
    else isFalse (by intro hh; cases hh; exact h rfl)
  | .ok _, .error _ => isFalse (by intro hh; cases hh)
  | .error _, .ok _ => isFalse (by intro hh; cases hh)

/-- Running minimum with accumulator, the tail step of
`np.minimum.accumulate`. -/
def cumminAux (m : ℚ) : List ℚ → List ℚ
  | [] => []
  | a :: l => min m a :: cumminAux (min m a) l

/-- Embeds `np.minimum.accumulate`: `out[0] = x[0]` and
`out[i] = min(out[i-1], x[i])`. -/
def cummin : List ℚ → List ℚ
  | [] => []
  | a :: l => a :: cumminAux a l

/-- Embeds the mask of `remove_duplicate_iters`:
`t2 = np.minimum.accumulate(t[::-1])[::-1]` and
`msk = np.hstack((t[:-1] < t2[1:], [True]))`. -/
def dupMask (t : List ℚ) : List Bool :=
  let t2 := (cummin t.reverse).reverse
  (List.zipWith (fun a b => decide (a < b)) t.dropLast t2.tail) ++ [true]

/-- Embeds `remove_duplicate_iters`: keep the masked samples and build a
(validated) `TimeSeries` from them. -/
def remove_duplicate_iters (t y : List ℚ) : Except PErr TimeSeries :=
  mkTimeSeries (applyMask (dupMask t) t) (applyMask (dupMask t) y)

/-- Embeds `np.rint`: round to the nearest integer, ties to the nearest
even integer (IEEE round-half-to-even, numpy's convention).  Generic over
any linear ordered field with a floor so it can be evaluated exactly on ℚ
and stated on ℝ. -/
def rint {α : Type} [LinearOrderedField α] [FloorRing α]
    [DecidableRel ((· < ·) : α → α → Prop)] (x : α) : ℤ :=
  let f := x - (⌊x⌋ : α)
  if f < 1 / 2 then ⌊x⌋
  else if 1 / 2 < f then ⌊x⌋ + 1
  else if ⌊x⌋ % 2 = 0 then ⌊x⌋ else ⌊x⌋ + 1

/-- Running (inclusive) sum with accumulator. -/
def cumsumAux (c : ℤ) : List ℤ → List ℤ
  | [] => []
  | a :: l => (c + a) :: cumsumAux (c + a) l

/-- Embeds `np.cumsum` on an integer array. -/
def cumsum (l : List ℤ) : List ℤ := cumsumAux 0 l

/-- Embeds the winding-increment array of `unfold_phase`: `wind[0] = 0`
and `wind[1:] = np.rint(nph[:-1] - nph[1:])`, where `nph` is the
normalised phase. -/
def windOf {α : Type} [LinearOrderedField α] [FloorRing α]
    [DecidableRel ((· < ·) : α → α → Prop)] (nph : List α) : List ℤ :=
  match nph with
  | [] => []
  | a :: l => 0 :: List.zipWith (fun x z => rint (x - z)) (a :: l) l

/-- Embeds `unfold_phase` for an arbitrary value of the constant `2π`
(the source hardcodes `2 * np.pi`; see `unfold_phase` below):
`nph = phase / twoPi`, `wind = cumsum` of the winding increments, output
`phase + twoPi * wind`. -/
def unfold_phase_gen {α : Type} [LinearOrderedField α] [FloorRing α]
    [DecidableRel ((· < ·) : α → α → Prop)] (twoPi : α) (phase : List α) :
    List α :=
  let nph := phase.map (· / twoPi)
  let wind := cumsum (windOf nph)
  List.zipWith (fun (p : α) (w : ℤ) => p + twoPi * (w : α)) phase wind

/-- Embeds `unfold_phase` exactly as in the source, with the constant
`2 * np.pi`. -/
noncomputable def unfold_phase (phase : List ℝ) : List ℝ :=
  unfold_phase_gen (2 * Real.pi) phase

/-- The sort key comparison of `combine_ts`: Python's
`sorted(series, key=lambda x: (sign * x.tmin, sign * x.tmax))` compares
the key tuples lexicographically. -/
def tsKeyLe (sign : ℚ) (a b : TimeSeries) : Prop :=
  sign * a.tmin < sign * b.tmin ∨
    (sign * a.tmin = sign * b.tmin ∧ sign * a.tmax ≤ sign * b.tmax)

instance (sign : ℚ) : DecidableRel (tsKeyLe sign) := fun a b => by
  unfold tsKeyLe
  infer_instance

/-- The accumulation loop of `combine_ts`: for each remaining series,
reverse its arrays when `prefer_late` (the `[::sign]` indexing), mask by
comparison with the last accumulated time (`times[-1]`; series are
non-empty by the data-model invariant) and append.  The boolean mask is
applied to the time and the value arrays alike, as in the source. -/
def combineAux (prefer_late : Bool) :
    List ℚ × List ℚ → List TimeSeries → List ℚ × List ℚ
  | acc, [] => acc
  | (ts, ys), s :: rest =>
    let rev : List ℚ → List ℚ := fun l => if prefer_late then l.reverse else l
    let st := rev s.t
    let sy := rev s.y
    let lastT := ts.getLastD 0
    let msk := st.map
      (fun x => if prefer_late then decide (x < lastT) else decide (lastT < x))
    combineAux prefer_late (ts ++ applyMask msk st, ys ++ applyMask msk sy) rest

/-- Embeds `combine_ts`: stable-sort the series by
`(sign * tmin, sign * tmax)` (Python's `sorted` is stable, modelled by
insertion sort), seed the accumulator with the first sorted series
(reversed when `prefer_late`), run the loop, reverse back and build a
validated `TimeSeries`.  Indexing `timeseries[0]` of an empty list is an
`IndexError`. -/
def combine_ts (prefer_late : Bool) (series : List TimeSeries) :
    Except PErr TimeSeries :=
  let sign : ℚ := if prefer_late then -1 else 1
  match List.insertionSort (tsKeyLe sign) series with
  | [] => .error .indexError
  | s0 :: rest =>
    let rev : List ℚ → List ℚ := fun l => if prefer_late then l.reverse else l
    let acc := combineAux prefer_late (rev s0.t, rev s0.y) rest
    mkTimeSeries (rev acc.1) (rev acc.2)

/-- Embeds `max(series, key=lambda x: x.tmin)`: Python's `max` keeps the
current maximum and replaces it only on a strictly greater key, returning
the first maximiser. -/
def pickMaxTmin : TimeSeries → List TimeSeries → TimeSeries
  | acc, [] => acc
  | acc, s :: rest => pickMaxTmin (if acc.tmin < s.tmin then s else acc) rest

/-- Embeds `min(series, key=lambda x: x.tmax)`: replaces only on a
strictly smaller key, returning the first minimiser. -/
def pickMinTmax : TimeSeries → List TimeSeries → TimeSeries
  | acc, [] => acc
  | acc, s :: rest => pickMinTmax (if s.tmax < acc.tmax then s else acc) rest

/-- Embeds `min(series, key=len)` (`len` of a series is the number of
sample points). -/
def pickMinLen : TimeSeries → List TimeSeries → TimeSeries
  | acc, [] => acc
  | acc, s :: rest =>
    pickMinLen (if s.t.length < acc.t.length then s else acc) rest

/-- Embeds `sample_common`: build the common regular grid
`np.linspace(max tmin, min tmax, min len)` and resample every series onto
it.  Python's `max`/`min` on an empty list raise `ValueError`. -/
def sample_common (series : List TimeSeries) : Except PErr (List TimeSeries) :=
  match series with
  | [] => .error (.valueError "max() arg is an empty sequence")
  | s0 :: rest =>
    let a := (pickMaxTmin s0 rest).tmin
    let b := (pickMinTmax s0 rest).tmax
    let n := (pickMinLen s0 rest).t.length
    mapExcept (fun s => resampled s (linspace a b n)) (s0 :: rest)

/-- Embeds `TimeSeries.savgol_smoothed_time`, parametric in the external
Savitzky–Golay filter `sg` (`BaseSeries.savgol_smoothed`, not in the
repository): resample regularly, compute `dt = ts.t[1] - ts.t[0]`, round
`tsmooth / dt` to the nearest integer, add one if even — and then, as the
source does, apply the filter to `self` (not to the resampled `ts`). -/
def savgol_smoothed_time (sg : TimeSeries → ℤ → ℕ → TimeSeries)
    (s : TimeSeries) (tsmooth : ℚ) (order : ℕ) : Except PErr TimeSeries := do
  let ts ← regular_resampled s
  let dtv := ts.t.getD 1 0 - ts.t.getD 0 0
  let window := rint (tsmooth / dtv)
  let window := if window % 2 = 0 then window + 1 else window
  pure (sg s window order)

/-- The external target of the spectral bridge: a frequency axis and the
complex amplitudes. -/
structure FrequencySeries where
  f : List ℚ
  amp : List ℂ

/-- Embeds `np.fft.fftfreq(n, d)`: frequencies
`[0, 1, ..., (n-1)/2, -(n/2), ..., -1] / (n*d)` (integer halving). -/
def fftfreq (n : ℕ) (d : ℚ) : List ℚ :=
  (List.range n).map
    (fun i : ℕ => ((if i < (n + 1) / 2 then (i : ℤ) else (i : ℤ) - n : ℤ) : ℚ) /
      ((n : ℚ) * d))

/-- Embeds `np.fft.fftshift`: `np.roll(x, n // 2)`, a right rotation that
brings the negative-frequency half to the front. -/
def fftshift {β : Type} (l : List β) : List β := l.rotateRight (l.length / 2)

/-- Embeds `np.fft.fft`: the discrete Fourier transform
`X[k] = Σ_j x[j] · exp(-2πi·j·k/n)`. -/
noncomputable def fftList (x : List ℂ) : List ℂ :=
  (List.range x.length).map
    (fun k : ℕ => ∑ j in Finset.range x.length,
      x.getD j 0 * Complex.exp (-2 * Real.pi * Complex.I * k * j / x.length))

/-- Embeds `TimeSeries.to_FrequencySeries`: regular-resample, read off
`dt`, compute `fftfreq` and the transform of the values (cast into ℂ, the
real-valued case), and `fftshift` both before building the
`FrequencySeries`. -/
noncomputable def to_FrequencySeries (s : TimeSeries) :
    Except PErr FrequencySeries := do
  let regular ← regular_resampled s
  let dtv ← regular.dt
  let freqs := fftfreq regular.t.length dtv
  let ffty := fftList (regular.y.map (fun q => (q : ℂ)))
  pure ⟨fftshift freqs, fftshift ffty⟩

/-- The declarative characterisation of `remove_duplicate_iters` from the
spec, stated on the zipped samples: a non-final sample is kept iff its
time is strictly below every later time (equivalently, below the minimum
over all later positions); the final sample is always kept. -/
def specKeep : List (ℚ × ℚ) → List (ℚ × ℚ)
  | [] => []
  | [p] => [p]
  | p :: q :: r =>
    if (q :: r).all (fun s => decide (p.1 < s.1)) then p :: specKeep (q :: r)
    else specKeep (q :: r)

/-- Suffix minimum, the recursive counterpart of
`np.minimum.accumulate(t[::-1])[::-1]`. -/
def sufMin : List ℚ → List ℚ
  | [] => []
  | a :: l =>
    match sufMin l with
    | [] => [a]
    | b :: bs => min a b :: b :: bs

/-- The declarative characterisation of the `combine_ts` accumulation
loop with `prefer_late = true`, processing the sorted tail: a sample of
the current series is kept exactly when its time is strictly below the
running cutoff, the minimum start time of all series processed before
it; the kept blocks are returned in reverse processing order (earliest
start last), matching the final un-reversed output. -/
def combineSpec : ℚ → List TimeSeries → List ℚ × List ℚ
  | _, [] => ([], [])
  | cutoff, s :: rest =>
    let kept := combineSpec (min cutoff s.tmin) rest
    (kept.1 ++ s.t.filter (fun x => decide (x < cutoff)),
     kept.2 ++ applyMask (s.t.map (fun x => decide (x < cutoff))) s.y)

/-! ### Basic lemmas about adjacent differences and the constructor -/

theorem diffs_nil : diffs [] = [] := rfl

theorem diffs_single (a : ℚ) : diffs [a] = [] := rfl

theorem diffs_cons_cons (a b : ℚ) (r : List ℚ) :
    diffs (a :: b :: r) = (b - a) :: diffs (b :: r) := rfl

theorem diffs_pos_of_chain {t : List ℚ} (h : List.Chain' (· < ·) t) :
    ∀ d ∈ diffs t, 0 < d := by
  induction t with
  | nil => intro d hd; simp [diffs_nil] at hd
  | cons a l ih =>
    cases l with
    | nil => intro d hd; simp [diffs_single] at hd
    | cons b r =>
      intro d hd
      rw [diffs_cons_cons] at hd
      rcases List.mem_cons.mp hd with hd | hd
      · have hab : a < b := (List.chain'_cons.mp h).1
        simpa [hd] using sub_pos.mpr hab
      · exact ih (List.chain'_cons.mp h).2 d hd

theorem mkTimeSeries_ok_of_chain {t : List ℚ} (y : List ℚ)
    (h : List.Chain' (· < ·) t) : mkTimeSeries t y = .ok ⟨t, y⟩ := by
  unfold mkTimeSeries
  by_cases hl : 1 < t.length
  · rw [if_pos hl]
    have hany : (diffs t).any (fun d => decide (d ≤ 0)) = false := by
      rw [List.any_eq_false]
      intro d hd
      simpa using not_le.mpr (diffs_pos_of_chain h d hd)
    rw [hany]
    rfl
  · rw [if_neg hl]

/-- C1.  TimeSeries construction: with equal-length time and value
sequences, a single-point (or empty) time sequence always constructs; for
length greater than one, construction succeeds whenever the times are
strictly increasing, and fails with the `ValueError`
"Time not monotonically increasing" whenever some adjacent difference is
non-positive. -/
theorem timeseries_construction (t y : List ℚ) (_hlen : t.length = y.length) :
    (t.length ≤ 1 → mkTimeSeries t y = .ok ⟨t, y⟩) ∧
    (1 < t.length → List.Chain' (· < ·) t → mkTimeSeries t y = .ok ⟨t, y⟩) ∧
    (1 < t.length → (∃ d ∈ diffs t, d ≤ 0) →
      mkTimeSeries t y = .error (.valueError "Time not monotonically increasing")) := by
  refine ⟨?_, ?_, ?_⟩
  · intro hle
    unfold mkTimeSeries
    rw [if_neg (not_lt.mpr hle)]
  · intro _ hch
    exact mkTimeSeries_ok_of_chain y hch
  · intro hlt hbad
    unfold mkTimeSeries
    rw [if_pos hlt]
    have hany : (diffs t).any (fun d => decide (d ≤ 0)) = true := by
      rw [List.any_eq_true]
      obtain ⟨d, hd, hd0⟩ := hbad
      exact ⟨d, hd, by simpa using hd0⟩
    rw [hany]
    rfl

/-- Closed instance of `timeseries_construction`: a strictly increasing
two-point series constructs, a non-increasing one is rejected, and a
single-point series constructs. -/
theorem timeseries_construction_witness :
    mkTimeSeries [0, 2] [1, 1] = .ok ⟨[0, 2], [1, 1]⟩ ∧
    mkTimeSeries [0, 0] [1, 1]
      = .error (.valueError "Time not monotonically increasing") ∧
    mkTimeSeries [3] [7] = .ok ⟨[3], [7]⟩ := by
  refine ⟨?_, ?_, ?_⟩
  · exact (timeseries_construction [0, 2] [1, 1] rfl).2.1 (by norm_num)
      (List.chain'_pair.mpr (by norm_num))
  · have hd : diffs [0, 0] = [0] := by
      rw [diffs_cons_cons]
      norm_num [diffs_single]
    exact (timeseries_construction [0, 0] [1, 1] rfl).2.2 (by norm_num)
      ⟨0, by rw [hd]; exact List.mem_singleton.mpr rfl, le_refl 0⟩
  · exact (timeseries_construction [3] [7] rfl).1 (by norm_num)

/-- C10.  The `dt` property on a single-point series hits an out-of-bounds
access (the array of consecutive differences is empty and `dt[0]` raises
an `IndexError`), not the documented non-regular-sampling `ValueError`;
for series with at least two points the access is in bounds and `dt`
behaves as documented (either a value or the regular-sampling
`ValueError`). -/
theorem dt_single_point (s1 s2 : TimeSeries)
    (h1 : s1.t.length = 1) (h2 : 2 ≤ s2.t.length) :
    s1.dt = .error .indexError ∧
    s1.dt ≠ .error (.valueError "Timeseries is not regularly sampled") ∧
    s2.dt ≠ .error .indexError := by
  obtain ⟨a, ha⟩ := List.length_eq_one.mp h1
  have hdt1 : s1.dt = .error .indexError := by
    unfold TimeSeries.dt
    rw [ha]
    rfl
  refine ⟨hdt1, ?_, ?_⟩
  · rw [hdt1]
    intro hh
    exact PErr.noConfusion (Except.error.inj hh)
  · rcases hs : s2.t with _ | ⟨a, _ | ⟨b, r⟩⟩
    · rw [hs] at h2; simp at h2
    · rw [hs] at h2; simp at h2
    · unfold TimeSeries.dt
      rw [hs, diffs_cons_cons]
      show (if (((b - a) :: diffs (b :: r)).all fun d => decide (d = b - a)) = true
          then (Except.ok (b - a) : Except PErr ℚ)
          else Except.error (PErr.valueError "Timeseries is not regularly sampled"))
          ≠ Except.error PErr.indexError
      split
      · intro hh; exact Except.noConfusion hh
      · intro hh; exact PErr.noConfusion (Except.error.inj hh)

/-- Closed instance of `dt_single_point` at a one-point and a two-point
series. -/
theorem dt_single_point_witness :
    TimeSeries.dt ⟨[7], [1]⟩ = .error .indexError ∧
    TimeSeries.dt ⟨[0, 1], [2, 3]⟩ ≠ .error .indexError := by
  have h := dt_single_point ⟨[7], [1]⟩ ⟨[0, 1], [2, 3]⟩ (by decide) (by decide)
  exact ⟨h.1, h.2.2⟩

/-! ### C6: the spectral bridge keeps the negative frequencies -/

/-- C6 (code-bug evidence).  On the real-valued input
`t = [0,1,2,3]`, `y = [1,2,3,4]`, `to_FrequencySeries` returns the full
zero-centred shifted frequency axis `[-1/2, -1/4, 0, 1/4]`, which contains
negative frequencies — contradicting the claim (and the method's own
docstring) that a real-valued signal keeps only non-negative
frequencies. -/
theorem to_FrequencySeries_keeps_negative_frequencies :
    Except.map FrequencySeries.f
      (to_FrequencySeries ⟨[0, 1, 2, 3], [1, 2, 3, 4]⟩)
      = .ok [-(1/2), -(1/4), 0, 1/4] ∧
    ∃ q ∈ [-(1/2), -(1/4), 0, (1/4 : ℚ)], q < 0 := by
  constructor
  · have h1 : regular_resampled ⟨[0, 1, 2, 3], [1, 2, 3, 4]⟩
        = .ok ⟨[0, 1, 2, 3], [1, 2, 3, 4]⟩ := by
      norm_num [regular_resampled, resampled, linspace, List.range_succ,
        mapExcept, interpAt, interpPairs, TimeSeries.tmin, TimeSeries.tmax,
        mkTimeSeries, diffs, bind, Except.bind]
    have h2 : TimeSeries.dt ⟨[0, 1, 2, 3], [1, 2, 3, 4]⟩ = .ok 1 := by
      have hd : diffs [0, 1, 2, 3] = [1, 1, 1] := by norm_num [diffs]
      unfold TimeSeries.dt
      rw [show (⟨[0, 1, 2, 3], [1, 2, 3, 4]⟩ : TimeSeries).t = [0, 1, 2, 3]
        from rfl, hd]
      norm_num
    have h3 : fftshift (fftfreq 4 1) = [-(1/2), -(1/4), 0, 1/4] := by
      norm_num [fftfreq, fftshift, List.range_succ, List.rotateRight]
    unfold to_FrequencySeries
    rw [h1]
    show Except.map FrequencySeries.f
        (Except.bind (TimeSeries.dt ⟨[0, 1, 2, 3], [1, 2, 3, 4]⟩) _)
        = .ok [-(1/2), -(1/4), 0, 1/4]
    rw [h2]
    show Except.ok
        (FrequencySeries.f
          ⟨fftshift (fftfreq (List.length [(0:ℚ), 1, 2, 3]) 1), _⟩)
        = .ok [-(1/2), -(1/4), 0, 1/4]
    rw [show List.length [(0:ℚ), 1, 2, 3] = 4 from rfl, h3]
  · exact ⟨-(1/2), by norm_num, by norm_num⟩

/-! ### C9: the smoothing window is computed from the resampled series,
but the filter is applied to the unresampled one -/

/-- C9 (code-bug evidence).  On the irregular series `t = [0,1,3]`,
`savgol_smoothed_time` applies the (abstract external) Savitzky–Golay
filter to the *original* series, even though the regularly-resampled
series — which the docstring and the spec say should be smoothed — has a
different time grid (`[0, 3/2, 3]` instead of `[0, 1, 3]`).  The odd
window (here `3`, from rounding `tsmooth/dt = 2` and incrementing the
even result) is nevertheless computed from the resampled grid. -/
theorem savgol_smoothed_time_smooths_unresampled :
    (∀ (sg : TimeSeries → ℤ → ℕ → TimeSeries) (order : ℕ),
      savgol_smoothed_time sg ⟨[0, 1, 3], [0, 6, 0]⟩ 3 order
        = Except.ok (sg ⟨[0, 1, 3], [0, 6, 0]⟩ 3 order)) ∧
    Except.map TimeSeries.t (regular_resampled ⟨[0, 1, 3], [0, 6, 0]⟩)
      = .ok [0, 3/2, 3] ∧
    ([0, 3/2, 3] : List ℚ) ≠ [0, 1, 3] := by
  have h1 : regular_resampled ⟨[0, 1, 3], [0, 6, 0]⟩
      = .ok ⟨[0, 3/2, 3], [0, 9/2, 0]⟩ := by
    norm_num [regular_resampled, resampled, linspace, List.range_succ,
      mapExcept, interpAt, interpPairs, TimeSeries.tmin, TimeSeries.tmax,
      mkTimeSeries, diffs, bind, Except.bind]
  refine ⟨?_, by rw [h1]; rfl, by norm_num⟩
  intro sg order
  unfold savgol_smoothed_time
  rw [h1]
  show Except.ok (sg ⟨[0, 1, 3], [0, 6, 0]⟩
      (if rint ((3:ℚ) / (List.getD [(0:ℚ), 3/2, 3] 1 0
            - List.getD [(0:ℚ), 3/2, 3] 0 0)) % 2 = 0
       then rint ((3:ℚ) / (List.getD [(0:ℚ), 3/2, 3] 1 0
            - List.getD [(0:ℚ), 3/2, 3] 0 0)) + 1
       else rint ((3:ℚ) / (List.getD [(0:ℚ), 3/2, 3] 1 0
            - List.getD [(0:ℚ), 3/2, 3] 0 0))) order)
      = Except.ok (sg ⟨[0, 1, 3], [0, 6, 0]⟩ 3 order)
  have hr : rint ((3:ℚ) / (List.getD [(0:ℚ), 3/2, 3] 1 0
      - List.getD [(0:ℚ), 3/2, 3] 0 0)) = 2 := by
    norm_num [rint]
  rw [hr]
  norm_num

/-! ### C7, counterexample: equal overlap bounds break sample_common -/

/-- C7 (counterexample).  Two series with `max(tmin) = 1 = min(tmax)`
(so `max(tmin) ≤ min(tmax)` holds as the claim requires) make
`sample_common` fail: the shared two-point grid degenerates to `[1, 1]`
and the validating constructor rejects it, instead of every returned
series sharing an identical time array. -/
theorem sample_common_equal_bounds_fails :
    (pickMaxTmin ⟨[0, 1], [0, 0]⟩ [⟨[1, 2], [0, 0]⟩]).tmin
      ≤ (pickMinTmax ⟨[0, 1], [0, 0]⟩ [⟨[1, 2], [0, 0]⟩]).tmax ∧
    sample_common [⟨[0, 1], [0, 0]⟩, ⟨[1, 2], [0, 0]⟩]
      = .error (.valueError "Time not monotonically increasing") := by
  constructor
  · norm_num [pickMaxTmin, pickMinTmax, TimeSeries.tmin, TimeSeries.tmax]
  · norm_num [sample_common, pickMaxTmin, pickMinTmax, pickMinLen,
      TimeSeries.tmin, TimeSeries.tmax, linspace, List.range_succ, mapExcept,
      resampled, interpAt, interpPairs, mkTimeSeries, diffs, bind, Except.bind]

/-! ### C5: fixed-frequency resampling -/

theorem chain_lt_arith (c d : ℚ) (hd : 0 < d) (m : ℕ) :
    List.Chain' (· < ·) ((List.range m).map (fun k : ℕ => c + (k : ℚ) * d)) := by
  rw [List.chain'_map]
  cases m with
  | zero => simp
  | succ n =>
    rw [List.chain'_range_succ]
    intro i _
    have hcast : (i : ℚ) < ((i + 1 : ℕ) : ℚ) := by push_cast; linarith
    have := mul_lt_mul_of_pos_right hcast hd
    linarith

theorem mapExcept_ok_of_forall {ε α β : Type} (f : α → Except ε β) (g : α → β)
    (l : List α) (h : ∀ x ∈ l, f x = .ok (g x)) :
    mapExcept f l = .ok (l.map g) := by
  induction l with
  | nil => rfl
  | cons a l ih =>
    have ha := h a (List.mem_cons_self a l)
    have hl := ih (fun x hx => h x (List.mem_cons_of_mem a hx))
    simp [mapExcept, ha, hl, bind, Except.bind]

theorem interpAt_ok_of_mem {s : TimeSeries} {x : ℚ}
    (h1 : s.tmin ≤ x) (h2 : x ≤ s.tmax) :
    interpAt s x = .ok (interpPairs (s.t.zip s.y) x) := by
  unfold interpAt
  rw [if_neg]
  push_neg
  exact ⟨h1, h2⟩

theorem resampled_ok {s : TimeSeries} {newt : List ℚ}
    (hch : List.Chain' (· < ·) newt)
    (hdom : ∀ x ∈ newt, s.tmin ≤ x ∧ x ≤ s.tmax) :
    resampled s newt
      = .ok ⟨newt, newt.map (fun x => interpPairs (s.t.zip s.y) x)⟩ := by
  have hmap : mapExcept (interpAt s) newt
      = .ok (newt.map (fun x => interpPairs (s.t.zip s.y) x)) :=
    mapExcept_ok_of_forall _ _ _
      (fun x hx => interpAt_ok_of_mem (hdom x hx).1 (hdom x hx).2)
  simp [resampled, hmap, bind, Except.bind, mkTimeSeries_ok_of_chain _ hch]

theorem grid_cons (d : ℚ) (m : ℕ) (c : ℚ) :
    (List.range (m + 1)).map (fun k : ℕ => c + (k : ℚ) * d)
      = c :: (List.range m).map (fun k : ℕ => (c + d) + (k : ℚ) * d) := by
  rw [List.range_succ_eq_map, List.map_cons, List.map_map]
  have h0 : c + ((0 : ℕ) : ℚ) * d = c := by push_cast; ring
  rw [h0]
  have h1 : ∀ a ∈ List.range m,
      ((fun k : ℕ => c + (k : ℚ) * d) ∘ Nat.succ) a = (c + d) + (a : ℚ) * d := by
    intro a _
    simp only [Function.comp]
    push_cast
    ring
  rw [List.map_congr_left h1]

theorem diffs_arith (d : ℚ) : ∀ (m : ℕ) (c : ℚ),
    diffs ((List.range m).map (fun k : ℕ => c + (k : ℚ) * d))
      = List.replicate (m - 1) d := by
  intro m
  induction m with
  | zero => intro c; rfl
  | succ n ih =>
    intro c
    rw [grid_cons]
    cases n with
    | zero => simp [diffs]
    | succ n' =>
      rw [grid_cons, diffs_cons_cons, ← grid_cons, ih (c + d)]
      have he : (c + d) - c = d := by ring
      rw [he]
      simp [List.replicate_succ]

/-- C5.  `fixed_frequency_resampled(frequency)` with `dt = 1/frequency`:
the call fails with the "Frequency too short for resampling" `ValueError`
when `dt > time_length`; otherwise it returns a series of `n + 1` points,
`n = floor(time_length / dt)`, whose times are `tmin + k*dt` for
`k = 0..n`, hence uniformly spaced with spacing `1/frequency` (exactly, in
the exact-arithmetic idealisation). -/
theorem fixed_frequency_resampled_spec (t y : List ℚ) (freq : ℚ)
    (_hch : List.Chain' (· < ·) t) (hfreq : 0 < freq) :
    (TimeSeries.time_length ⟨t, y⟩ < 1 / freq →
      fixed_frequency_resampled ⟨t, y⟩ freq
        = .error (.valueError "Frequency too short for resampling")) ∧
    (1 / freq ≤ TimeSeries.time_length ⟨t, y⟩ →
      ∃ out, fixed_frequency_resampled ⟨t, y⟩ freq = .ok out ∧
        out.t = (List.range
            ((⌊TimeSeries.time_length ⟨t, y⟩ / (1 / freq)⌋).toNat + 1)).map
          (fun k : ℕ => TimeSeries.tmin ⟨t, y⟩ + (k : ℚ) * (1 / freq)) ∧
        out.t.length
          = (⌊TimeSeries.time_length ⟨t, y⟩ / (1 / freq)⌋).toNat + 1 ∧
        diffs out.t = List.replicate
          (⌊TimeSeries.time_length ⟨t, y⟩ / (1 / freq)⌋).toNat (1 / freq)) := by
  constructor
  · intro h
    unfold fixed_frequency_resampled
    dsimp only
    rw [if_pos h]
  · intro h
    have hdtv : 0 < 1 / freq := by positivity
    set L := TimeSeries.time_length ⟨t, y⟩ with hLdef
    set n : ℤ := ⌊L / (1 / freq)⌋ with hndef
    have hn1 : (1 : ℤ) ≤ n := by
      rw [hndef]
      exact Int.le_floor.mpr (by push_cast; exact (one_le_div hdtv).mpr h)
    have hn0 : (0 : ℤ) ≤ n := le_trans one_pos.le hn1
    have hNt : (n + 1).toNat = n.toNat + 1 := by omega
    have hcastn : ((n.toNat : ℚ)) = (n : ℚ) := by
      exact_mod_cast congrArg (fun z : ℤ => (z : ℚ)) (Int.toNat_of_nonneg hn0)
    have htmax : TimeSeries.tmax ⟨t, y⟩ = TimeSeries.tmin ⟨t, y⟩ + L := by
      rw [hLdef]
      unfold TimeSeries.time_length
      ring
    have hdom : ∀ x ∈ (List.range (n.toNat + 1)).map
        (fun k : ℕ => TimeSeries.tmin ⟨t, y⟩ + (k : ℚ) * (1 / freq)),
        TimeSeries.tmin ⟨t, y⟩ ≤ x ∧ x ≤ TimeSeries.tmax ⟨t, y⟩ := by
      intro x hx
      obtain ⟨k, hk, rfl⟩ := List.mem_map.mp hx
      have hk' : k ≤ n.toNat := by
        have := List.mem_range.mp hk
        omega
      constructor
      · have : (0 : ℚ) ≤ (k : ℚ) * (1 / freq) := by positivity
        linarith
      · rw [htmax]
        have hkn : (k : ℚ) ≤ (n : ℚ) := by
          rw [← hcastn]
          exact_mod_cast hk'
        have hfl : ((n : ℚ)) ≤ L / (1 / freq) := Int.floor_le _
        have : (k : ℚ) * (1 / freq) ≤ (L / (1 / freq)) * (1 / freq) := by
          apply mul_le_mul_of_nonneg_right (le_trans hkn hfl) hdtv.le
        rw [div_mul_cancel₀ _ (ne_of_gt hdtv)] at this
        linarith
    have hres := resampled_ok (s := ⟨t, y⟩)
      (chain_lt_arith (TimeSeries.tmin ⟨t, y⟩) (1 / freq) hdtv (n.toNat + 1)) hdom
    refine ⟨⟨(List.range (n.toNat + 1)).map
        (fun k : ℕ => TimeSeries.tmin ⟨t, y⟩ + (k : ℚ) * (1 / freq)),
      ((List.range (n.toNat + 1)).map
          (fun k : ℕ => TimeSeries.tmin ⟨t, y⟩ + (k : ℚ) * (1 / freq))).map
        (fun x => interpPairs
          ((⟨t, y⟩ : TimeSeries).t.zip (⟨t, y⟩ : TimeSeries).y) x)⟩,
      ?_, rfl, ?_, ?_⟩
    · unfold fixed_frequency_resampled
      dsimp only
      rw [if_neg (not_lt.mpr h), ← hLdef, ← hndef, hNt]
      exact hres
    · simp
    · rw [diffs_arith]
      simp

/-- Closed instance of `fixed_frequency_resampled_spec`: resampling the
series on `t = [0, 1]` at frequency 2 yields the three-point grid
`[0, 1/2, 1]`. -/
theorem fixed_frequency_resampled_witness :
    ∃ out, fixed_frequency_resampled ⟨[0, 1], [0, 0]⟩ 2 = .ok out ∧
      out.t = [0, 1/2, 1] := by
  have hL : TimeSeries.time_length ⟨[0, 1], [0, 0]⟩ = 1 := by
    norm_num [TimeSeries.time_length, TimeSeries.tmax, TimeSeries.tmin,
      List.getLastD]
  have h := (fixed_frequency_resampled_spec [0, 1] [0, 0] 2
      (List.chain'_pair.mpr (by norm_num)) (by norm_num)).2
      (by rw [hL]; norm_num)
  obtain ⟨out, h1, h2, _, _⟩ := h
  refine ⟨out, h1, ?_⟩
  rw [h2, hL]
  norm_num [List.range_succ, TimeSeries.tmin]
  rw [show Int.toNat 2 = 2 from rfl]
  norm_num [List.range_succ]

/-! ### C2: remove_duplicate_iters keeps exactly the samples below all
later times, plus the last sample -/

theorem min_foldl_comm (a : ℚ) : ∀ (l : List ℚ) (b : ℚ),
    min a (l.foldl min b) = l.foldl min (min a b) := by
  intro l
  induction l with
  | nil => intro b; rfl
  | cons c r ih =>
    intro b
    simp only [List.foldl_cons]
    rw [ih (min b c), min_assoc]

theorem foldl_min_reverse (l : List ℚ) (b : ℚ) :
    l.reverse.foldl min b = l.foldl min b := by
  induction l generalizing b with
  | nil => rfl
  | cons a r ih =>
    simp only [List.reverse_cons, List.foldl_append, List.foldl_cons,
      List.foldl_nil, List.foldl_nil]
    rw [ih b, min_comm (r.foldl min b) a, min_foldl_comm, min_comm a b]

theorem foldl_min_le_init (l : List ℚ) (i : ℚ) : l.foldl min i ≤ i := by
  induction l generalizing i with
  | nil => exact le_refl i
  | cons a r ih =>
    simp only [List.foldl_cons]
    exact le_trans (ih (min i a)) (min_le_left i a)

theorem foldl_min_le_mem {x : ℚ} {l : List ℚ} (hx : x ∈ l) (i : ℚ) :
    l.foldl min i ≤ x := by
  induction l generalizing i with
  | nil => cases hx
  | cons a r ih =>
    simp only [List.foldl_cons]
    rcases List.mem_cons.mp hx with rfl | hx'
    · exact le_trans (foldl_min_le_init r (min i x)) (min_le_right i x)
    · exact ih hx' (min i a)

theorem lt_foldl_min_iff (a i : ℚ) (l : List ℚ) :
    a < l.foldl min i ↔ a < i ∧ ∀ x ∈ l, a < x := by
  induction l generalizing i with
  | nil => simp
  | cons c r ih =>
    simp only [List.foldl_cons, ih (min i c), lt_min_iff]
    constructor
    · rintro ⟨⟨h1, h2⟩, h3⟩
      exact ⟨h1, fun x hx => by
        rcases List.mem_cons.mp hx with rfl | hx'
        · exact h2
        · exact h3 x hx'⟩
    · rintro ⟨h1, h2⟩
      exact ⟨⟨h1, h2 c (List.mem_cons_self c r)⟩,
        fun x hx => h2 x (List.mem_cons_of_mem c hx)⟩

theorem cumminAux_append (a : ℚ) : ∀ (xs : List ℚ) (m : ℚ),
    cumminAux m (xs ++ [a]) = cumminAux m xs ++ [min (xs.foldl min m) a] := by
  intro xs
  induction xs with
  | nil => intro m; rfl
  | cons c cs ih =>
    intro m
    simp only [List.cons_append, cumminAux, List.foldl_cons, List.append_eq]
    rw [ih (min m c)]

theorem sufMin_ne_nil {l : List ℚ} (h : l ≠ []) : sufMin l ≠ [] := by
  cases l with
  | nil => exact absurd rfl h
  | cons a l =>
    unfold sufMin
    cases sufMin l with
    | nil => exact List.cons_ne_nil a []
    | cons b bs => exact List.cons_ne_nil (min a b) (b :: bs)

theorem sufMin_cons_of_ne_nil {l : List ℚ} (a : ℚ) (h : l ≠ []) :
    sufMin (a :: l) = min a ((sufMin l).headD 0) :: sufMin l := by
  have he : sufMin (a :: l) = match sufMin l with
      | [] => [a]
      | b :: bs => min a b :: b :: bs := rfl
  rcases hs : sufMin l with _ | ⟨b, bs⟩
  · exact absurd hs (sufMin_ne_nil h)
  · rw [he, hs]
    rfl

theorem sufMin_headD : ∀ (l : List ℚ) (a : ℚ),
    (sufMin (a :: l)).headD 0 = l.foldl min a := by
  intro l
  induction l with
  | nil => intro a; rfl
  | cons c r ih =>
    intro a
    rw [sufMin_cons_of_ne_nil a (List.cons_ne_nil c r), List.headD_cons,
      ih c, List.foldl_cons, min_foldl_comm]

theorem t2_eq_sufMin : ∀ (l : List ℚ), (cummin l.reverse).reverse = sufMin l := by
  intro l
  induction l with
  | nil => rfl
  | cons a l ih =>
    rcases hl : l with _ | ⟨b, r⟩
    · rfl
    · rw [← hl]
      have hlne : l ≠ [] := by rw [hl]; exact List.cons_ne_nil b r
      have hrevne : l.reverse ≠ [] := by simpa using hlne
      obtain ⟨c, cs, hrev⟩ := List.exists_cons_of_ne_nil hrevne
      have hcmem : c ∈ l := by
        rw [← List.mem_reverse, hrev]
        exact List.mem_cons_self c cs
      have hcc : ∀ (x : ℚ) (xs : List ℚ), cummin (x :: xs) = x :: cumminAux x xs :=
        fun _ _ => rfl
      have hcum : cummin ((a :: l).reverse)
          = cummin l.reverse ++ [min (cs.foldl min c) a] := by
        rw [List.reverse_cons, hrev, List.cons_append, hcc, hcc,
          cumminAux_append a cs c, List.cons_append]
      have hM : cs.foldl min c = l.foldl min c := by
        have h1 : cs.foldl min c = (c :: cs).foldl min c := by
          simp [List.foldl_cons]
        rw [h1, ← hrev, foldl_min_reverse]
      have hhead : min (cs.foldl min c) a = min a ((sufMin l).headD 0) := by
        have hF : (sufMin l).headD 0 = r.foldl min b := by
          rw [hl]; exact sufMin_headD r b
        have hlc : l.foldl min c = min c (r.foldl min b) := by
          rw [hl, List.foldl_cons, ← min_foldl_comm]
        have hle : r.foldl min b ≤ c := by
          rw [hl] at hcmem
          rcases List.mem_cons.mp hcmem with h' | hmem
          · rw [h']
            exact foldl_min_le_init r b
          · exact foldl_min_le_mem hmem b
        rw [hM, hlc, min_comm c, min_eq_left hle, hF, min_comm]
      rw [hcum, List.reverse_append, List.reverse_cons, List.reverse_nil,
        List.nil_append, List.singleton_append, ih,
        sufMin_cons_of_ne_nil a hlne, hhead]

theorem dupMask_single (a : ℚ) : dupMask [a] = [true] := rfl

theorem dupMask_cons (a b : ℚ) (r : List ℚ) :
    dupMask (a :: b :: r) = decide (a < r.foldl min b) :: dupMask (b :: r) := by
  unfold dupMask
  dsimp only
  rw [t2_eq_sufMin, t2_eq_sufMin]
  rw [sufMin_cons_of_ne_nil a (List.cons_ne_nil b r)]
  obtain ⟨ms, hm⟩ : ∃ ms, sufMin (b :: r) = (r.foldl min b) :: ms := by
    rcases hs : sufMin (b :: r) with _ | ⟨m, ms⟩
    · exact absurd hs (sufMin_ne_nil (List.cons_ne_nil b r))
    · have := sufMin_headD r b
      rw [hs, List.headD_cons] at this
      exact ⟨ms, by rw [← this]⟩
  rw [hm, List.dropLast_cons₂, List.tail_cons, List.tail_cons,
    List.zipWith_cons_cons, List.cons_append]

theorem applyMask_cons {α : Type} (q : Bool) (bs : List Bool) (x : α)
    (xs : List α) :
    applyMask (q :: bs) (x :: xs)
      = if q then x :: applyMask bs xs else applyMask bs xs := rfl

theorem specKeep_cons (p q : ℚ × ℚ) (rest : List (ℚ × ℚ)) :
    specKeep (p :: q :: rest)
      = if ((q :: rest).all fun s => decide (p.1 < s.1))
        then p :: specKeep (q :: rest) else specKeep (q :: rest) := rfl

theorem all_fst_zip (a : ℚ) : ∀ (t y : List ℚ), t.length = y.length →
    ((t.zip y).all fun s => decide (a < s.1)) = (t.all fun x => decide (a < x)) := by
  intro t
  induction t with
  | nil => intro y _; rfl
  | cons b r ih =>
    intro y hlen
    cases y with
    | nil => simp at hlen
    | cons d m =>
      rw [List.zip_cons_cons, List.all_cons, List.all_cons,
        ih m (by simpa using hlen)]

theorem specKeep_eq_applyMask : ∀ (t y : List ℚ), t.length = y.length →
    applyMask (dupMask t) (t.zip y) = specKeep (t.zip y) := by
  intro t
  induction t with
  | nil => intro y _; rfl
  | cons a t' ih =>
    intro y hlen
    cases y with
    | nil => simp at hlen
    | cons c y' =>
      cases t' with
      | nil =>
        cases y' with
        | nil => rfl
        | cons d m => simp at hlen
      | cons b r =>
        cases y' with
        | nil => simp at hlen
        | cons d m =>
          have hlen' : (b :: r).length = (d :: m).length := by simpa using hlen
          have hcond : decide (a < r.foldl min b)
              = (((b :: r).zip (d :: m)).all fun s => decide (a < s.1)) := by
            rw [all_fst_zip a (b :: r) (d :: m) hlen', Bool.eq_iff_iff,
              decide_eq_true_eq, List.all_eq_true,
              lt_foldl_min_iff]
            constructor
            · rintro ⟨hab, hr⟩ x hx
              rw [decide_eq_true_eq]
              rcases List.mem_cons.mp hx with he | hx'
              · rw [he]; exact hab
              · exact hr x hx'
            · intro hall
              refine ⟨?_, fun x hx => ?_⟩
              · have := hall b (List.mem_cons_self b r)
                rwa [decide_eq_true_eq] at this
              · have := hall x (List.mem_cons_of_mem b hx)
                rwa [decide_eq_true_eq] at this
          have ih' := ih (d :: m) hlen'
          simp only [List.zip_cons_cons] at ih' hcond ⊢
          rw [dupMask_cons, applyMask_cons, specKeep_cons, ← hcond, ih']

theorem applyMask_map {α β : Type} (f : α → β) : ∀ (m : List Bool) (l : List α),
    applyMask m (l.map f) = (applyMask m l).map f := by
  intro m
  induction m with
  | nil => intro l; cases l <;> rfl
  | cons q bs ih =>
    intro l
    cases l with
    | nil => rfl
    | cons x xs =>
      rw [List.map_cons, applyMask_cons, applyMask_cons]
      cases q with
      | false => simpa using ih xs
      | true => simpa using ih xs

theorem specKeep_subset : ∀ (ps : List (ℚ × ℚ)) (x : ℚ × ℚ),
    x ∈ specKeep ps → x ∈ ps := by
  intro ps
  induction ps with
  | nil => intro x hx; cases hx
  | cons p rest ih =>
    intro x hx
    cases rest with
    | nil =>
      have he : specKeep [p] = [p] := rfl
      rw [he] at hx
      exact hx
    | cons q rest' =>
      rw [specKeep_cons] at hx
      by_cases hc : (((q :: rest').all fun s => decide (p.1 < s.1)) = true)
      · rw [if_pos hc] at hx
        rcases List.mem_cons.mp hx with he | hx'
        · rw [he]; exact List.mem_cons_self p (q :: rest')
        · exact List.mem_cons_of_mem p (ih x hx')
      · rw [if_neg hc] at hx
        exact List.mem_cons_of_mem p (ih x hx)

theorem specKeep_pairwise : ∀ ps : List (ℚ × ℚ),
    List.Pairwise (fun p q => p.1 < q.1) (specKeep ps) := by
  intro ps
  induction ps with
  | nil => exact List.Pairwise.nil
  | cons p rest ih =>
    cases rest with
    | nil => exact List.pairwise_singleton _ p
    | cons q rest' =>
      rw [specKeep_cons]
      by_cases hc : (((q :: rest').all fun s => decide (p.1 < s.1)) = true)
      · rw [if_pos hc]
        refine List.Pairwise.cons ?_ ih
        intro x hx
        have hall := List.all_eq_true.mp hc x (specKeep_subset _ x hx)
        rwa [decide_eq_true_eq] at hall
      · rw [if_neg hc]
        exact ih

theorem specKeep_fst_chain (ps : List (ℚ × ℚ)) :
    List.Chain' (· < ·) ((specKeep ps).map Prod.fst) := by
  rw [List.chain'_iff_pairwise, List.pairwise_map]
  exact specKeep_pairwise ps

/-- C2.  `remove_duplicate_iters(t, y)`: the output keeps exactly the
samples at positions before the last whose time is strictly below every
later time (equivalently, below the minimum over all later positions),
plus the last sample — the characterisation `specKeep` — and the
resulting series is strictly monotonic (so the validating constructor
accepts it).  The witness instantiates `t = [1,2,3,4,2,3]`, giving times
`[1,2,3]` with values from the last occurrences (indices 0, 4, 5). -/
theorem remove_duplicate_iters_spec (t y : List ℚ)
    (hlen : t.length = y.length) (_hne : t ≠ []) :
    remove_duplicate_iters t y
      = .ok ⟨(specKeep (t.zip y)).map Prod.fst,
             (specKeep (t.zip y)).map Prod.snd⟩ ∧
    List.Chain' (· < ·) ((specKeep (t.zip y)).map Prod.fst) := by
  have hz := specKeep_eq_applyMask t y hlen
  have e1 : (t.zip y).map Prod.fst = t := List.map_fst_zip t y (le_of_eq hlen)
  have e2 : (t.zip y).map Prod.snd = y :=
    List.map_snd_zip t y (le_of_eq hlen.symm)
  have ht : applyMask (dupMask t) t = (specKeep (t.zip y)).map Prod.fst := by
    calc applyMask (dupMask t) t
        = applyMask (dupMask t) ((t.zip y).map Prod.fst) := by rw [e1]
      _ = (applyMask (dupMask t) (t.zip y)).map Prod.fst :=
          applyMask_map Prod.fst _ _
      _ = (specKeep (t.zip y)).map Prod.fst := by rw [hz]
  have hy : applyMask (dupMask t) y = (specKeep (t.zip y)).map Prod.snd := by
    calc applyMask (dupMask t) y
        = applyMask (dupMask t) ((t.zip y).map Prod.snd) := by rw [e2]
      _ = (applyMask (dupMask t) (t.zip y)).map Prod.snd :=
          applyMask_map Prod.snd _ _
      _ = (specKeep (t.zip y)).map Prod.snd := by rw [hz]
  have hch := specKeep_fst_chain (t.zip y)
  unfold remove_duplicate_iters
  rw [ht, hy, mkTimeSeries_ok_of_chain _ hch]
  exact ⟨rfl, hch⟩

theorem remove_duplicate_iters_witness :
    remove_duplicate_iters [1, 2, 3, 4, 2, 3] [0, 10, 20, 30, 40, 50]
      = .ok ⟨[1, 2, 3], [0, 40, 50]⟩ := by
  have h := (remove_duplicate_iters_spec [1, 2, 3, 4, 2, 3]
      [0, 10, 20, 30, 40, 50] rfl (by simp)).1
  rw [h]
  norm_num [specKeep, List.all_cons, List.all_nil]

/-! ### C3 and C8: combine_ts overlap resolution and tie-break -/

theorem headD_le_mem {l : List ℚ} (hch : List.Chain' (· < ·) l) :
    ∀ x ∈ l, l.headD 0 ≤ x := by
  cases l with
  | nil => intro x hx; cases hx
  | cons a r =>
    intro x hx
    rw [List.headD_cons]
    rcases List.mem_cons.mp hx with he | hx'
    · rw [he]
    · have hp := List.chain'_iff_pairwise.mp hch
      exact le_of_lt ((List.pairwise_cons.mp hp).1 x hx')

theorem getLastD_reverse (l : List ℚ) (d : ℚ) :
    l.reverse.getLastD d = l.headD d := by
  cases l with
  | nil => rfl
  | cons a r =>
    rw [List.reverse_cons, List.getLastD_concat, List.headD_cons]

theorem applyMask_append {α : Type} : ∀ (m1 : List Bool) (l1 : List α)
    (m2 : List Bool) (l2 : List α), m1.length = l1.length →
    applyMask (m1 ++ m2) (l1 ++ l2) = applyMask m1 l1 ++ applyMask m2 l2 := by
  intro m1
  induction m1 with
  | nil =>
    intro l1 m2 l2 hlen
    rw [List.length_nil] at hlen
    rw [List.eq_nil_of_length_eq_zero hlen.symm]
    rfl
  | cons q bs ih =>
    intro l1 m2 l2 hlen
    cases l1 with
    | nil => simp at hlen
    | cons x xs =>
      rw [List.cons_append, List.cons_append, applyMask_cons, applyMask_cons,
        ih xs m2 l2 (by simpa using hlen)]
      cases q with
      | false => rfl
      | true => rw [if_pos rfl, if_pos rfl, List.cons_append]

theorem applyMask_filter (p : ℚ → Bool) : ∀ (l : List ℚ),
    applyMask (l.map p) l = l.filter p := by
  intro l
  induction l with
  | nil => rfl
  | cons a l ih =>
    rw [List.map_cons, applyMask_cons, List.filter_cons, ih]

theorem applyMask_all_false {α : Type} (p : ℚ → Bool) :
    ∀ (l : List ℚ) (z : List α), (∀ x ∈ l, p x = false) →
    applyMask (l.map p) z = [] := by
  intro l
  induction l with
  | nil => intro z _; cases z <;> rfl
  | cons a l ih =>
    intro z hall
    cases z with
    | nil => rfl
    | cons x xs =>
      rw [List.map_cons, applyMask_cons, hall a (List.mem_cons_self a l)]
      rw [if_neg (by simp)]
      exact ih xs (fun x hx => hall x (List.mem_cons_of_mem a hx))

theorem applyMask_reverse {α : Type} (p : ℚ → Bool) : ∀ (l : List ℚ)
    (z : List α), l.length = z.length →
    applyMask (l.reverse.map p) z.reverse = (applyMask (l.map p) z).reverse := by
  intro l
  induction l with
  | nil =>
    intro z hlen
    rw [List.length_nil] at hlen
    rw [List.eq_nil_of_length_eq_zero hlen.symm]
    rfl
  | cons a l ih =>
    intro z hlen
    cases z with
    | nil => simp at hlen
    | cons x xs =>
      have hlen' : l.length = xs.length := by simpa using hlen
      rw [List.reverse_cons, List.reverse_cons, List.map_append,
        applyMask_append _ _ _ _ (by simp [hlen']), ih xs hlen']
      simp only [List.map_cons, List.map_nil, applyMask_cons]
      cases hp : p a with
      | false => simp [applyMask]
      | true => simp [applyMask]

theorem insertionSort_pair_neg {r : TimeSeries → TimeSeries → Prop}
    [DecidableRel r] (A B : TimeSeries) (h : ¬ r A B) :
    List.insertionSort r [A, B] = [B, A] := by
  simp [List.insertionSort, List.orderedInsert, if_neg h]

theorem insertionSort_pair_pos {r : TimeSeries → TimeSeries → Prop}
    [DecidableRel r] (A B : TimeSeries) (h : r A B) :
    List.insertionSort r [A, B] = [A, B] := by
  simp [List.insertionSort, List.orderedInsert, if_pos h]

theorem tsKeyLe_neg_iff (A B : TimeSeries) : tsKeyLe (-1) A B ↔
    (B.tmin < A.tmin ∨ (A.tmin = B.tmin ∧ B.tmax ≤ A.tmax)) := by
  unfold tsKeyLe
  simp only [neg_mul, one_mul, neg_lt_neg_iff, neg_inj, neg_le_neg_iff]

theorem combine_ts_true_eq (series : List TimeSeries) (B A : TimeSeries)
    (h : List.insertionSort (tsKeyLe (-1)) series = [B, A]) :
    combine_ts true series
      = mkTimeSeries
          ((B.t.reverse ++ applyMask
            ((A.t.reverse).map (fun x => decide (x < B.t.reverse.getLastD 0)))
            A.t.reverse).reverse)
          ((B.y.reverse ++ applyMask
            ((A.t.reverse).map (fun x => decide (x < B.t.reverse.getLastD 0)))
            A.y.reverse).reverse) := by
  unfold combine_ts
  dsimp only
  rw [show ((if true then (-1 : ℚ) else 1)) = (-1 : ℚ) from rfl, h]
  rfl

theorem combineSpec_nil (cutoff : ℚ) : combineSpec cutoff [] = ([], []) := rfl

theorem combineSpec_cons (cutoff : ℚ) (s : TimeSeries) (rest : List TimeSeries) :
    combineSpec cutoff (s :: rest)
      = ((combineSpec (min cutoff s.tmin) rest).1
           ++ s.t.filter (fun x => decide (x < cutoff)),
         (combineSpec (min cutoff s.tmin) rest).2
           ++ applyMask (s.t.map (fun x => decide (x < cutoff))) s.y) := rfl

theorem getLastD_append_filter (ts t : List ℚ)
    (hch : List.Chain' (· < ·) t) (hne : t ≠ []) :
    (ts ++ (t.filter (fun x => decide (x < ts.getLastD 0))).reverse).getLastD 0
      = min (ts.getLastD 0) (t.headD 0) := by
  obtain ⟨a, l', rfl⟩ := List.exists_cons_of_ne_nil hne
  rw [List.headD_cons]
  by_cases hpa : a < ts.getLastD 0
  · rw [List.filter_cons, if_pos (by simpa using hpa)]
    rw [List.reverse_cons, ← List.append_assoc, List.getLastD_concat]
    exact (min_eq_right hpa.le).symm
  · have hfil : (a :: l').filter (fun x => decide (x < ts.getLastD 0)) = [] := by
      rw [List.filter_eq_nil_iff]
      intro x hx
      rcases List.mem_cons.mp hx with rfl | hx'
      · simpa using hpa
      · have hax : a < x :=
          (List.pairwise_cons.mp (List.chain'_iff_pairwise.mp hch)).1 x hx'
        simp only [decide_eq_true_eq]
        exact not_lt.mpr (le_of_lt (lt_of_le_of_lt (not_lt.mp hpa) hax))
    rw [hfil, List.reverse_nil, List.append_nil]
    exact (min_eq_left (not_lt.mp hpa)).symm

theorem combineAux_eq_combineSpec :
    ∀ (rest : List TimeSeries) (ts ys : List ℚ),
    (∀ s ∈ rest, List.Chain' (· < ·) s.t ∧ s.t ≠ [] ∧ s.t.length = s.y.length) →
    ts ≠ [] →
    combineAux true (ts, ys) rest
      = (ts ++ ((combineSpec (ts.getLastD 0) rest).1).reverse,
         ys ++ ((combineSpec (ts.getLastD 0) rest).2).reverse) := by
  intro rest
  induction rest with
  | nil =>
    intro ts ys _ _
    show (ts, ys) = _
    rw [combineSpec_nil]
    simp
  | cons s rest ih =>
    intro ts ys hwf hts
    obtain ⟨hch, hne, hlen⟩ := hwf s (List.mem_cons_self s rest)
    have hwf2 : ∀ x ∈ rest,
        List.Chain' (· < ·) x.t ∧ x.t ≠ [] ∧ x.t.length = x.y.length :=
      fun x hx => hwf x (List.mem_cons_of_mem s hx)
    have hstep : combineAux true (ts, ys) (s :: rest)
        = combineAux true
            (ts ++ applyMask ((s.t.reverse).map
               (fun x => decide (x < ts.getLastD 0))) s.t.reverse,
             ys ++ applyMask ((s.t.reverse).map
               (fun x => decide (x < ts.getLastD 0))) s.y.reverse) rest := rfl
    rw [hstep,
      applyMask_reverse (fun x => decide (x < ts.getLastD 0)) s.t s.t rfl,
      applyMask_reverse (fun x => decide (x < ts.getLastD 0)) s.t s.y hlen,
      applyMask_filter]
    have hts2 : ts ++ (s.t.filter
        (fun x => decide (x < ts.getLastD 0))).reverse ≠ [] := by
      intro h
      exact hts (List.append_eq_nil.mp h).1
    rw [ih _ _ hwf2 hts2]
    rw [getLastD_append_filter ts s.t hch hne]
    rw [show s.t.headD 0 = s.tmin from rfl]
    rw [combineSpec_cons]
    simp [List.reverse_append, List.append_assoc]

theorem combineSpec_chain :
    ∀ (rest : List TimeSeries) (cutoff : ℚ),
    (∀ s ∈ rest, List.Chain' (· < ·) s.t) →
    List.Chain' (· < ·) (combineSpec cutoff rest).1 ∧
    (∀ x ∈ (combineSpec cutoff rest).1, x < cutoff) := by
  intro rest
  induction rest with
  | nil =>
    intro cutoff _
    rw [combineSpec_nil]
    exact ⟨List.chain'_nil, by intro x hx; cases hx⟩
  | cons s rest ih =>
    intro cutoff hwf
    have hch := hwf s (List.mem_cons_self s rest)
    obtain ⟨ihc, ihb⟩ := ih (min cutoff s.tmin)
      (fun x hx => hwf x (List.mem_cons_of_mem s hx))
    rw [combineSpec_cons]
    dsimp only
    constructor
    · rw [List.chain'_iff_pairwise, List.pairwise_append]
      refine ⟨List.chain'_iff_pairwise.mp ihc,
        (List.chain'_iff_pairwise.mp hch).filter _, ?_⟩
      intro x hx z hz
      have h1 : x < s.tmin := lt_of_lt_of_le (ihb x hx) (min_le_right _ _)
      exact lt_of_lt_of_le h1 (headD_le_mem hch z (List.mem_of_mem_filter hz))
    · intro x hx
      rcases List.mem_append.mp hx with hx1 | hx2
      · exact lt_of_lt_of_le (ihb x hx1) (min_le_left _ _)
      · exact of_decide_eq_true (List.mem_filter.mp hx2).2

theorem combine_ts_true_sorted (series : List TimeSeries) (s0 : TimeSeries)
    (rest : List TimeSeries)
    (h : List.insertionSort (tsKeyLe (-1)) series = s0 :: rest) :
    combine_ts true series
      = mkTimeSeries
          ((combineAux true (s0.t.reverse, s0.y.reverse) rest).1.reverse)
          ((combineAux true (s0.t.reverse, s0.y.reverse) rest).2.reverse) := by
  unfold combine_ts
  dsimp only
  rw [show ((if true then (-1 : ℚ) else 1)) = (-1 : ℚ) from rfl, h]
  rfl

/-- C3.  `combine_ts` with `prefer_late = true` on any list of
well-formed series: the inputs are sorted by descending start time (ties
broken toward the longer series), the first sorted series is kept whole,
and a sample of each following series is kept exactly when its time lies
strictly below the minimum start time of all series sorted before it
(the cutoff folded by `combineSpec`).  So every time range covered by
two or more series is taken entirely from the later-starting one, while
samples of an earlier series at or after a later series' start are
dropped — even when they lie beyond that series' end and overlap
nothing.  The combined time array is strictly increasing, hence the
construction succeeds. -/
theorem combine_ts_spec (series : List TimeSeries) (s0 : TimeSeries)
    (rest : List TimeSeries)
    (hwf : ∀ s ∈ series,
      List.Chain' (· < ·) s.t ∧ s.t ≠ [] ∧ s.t.length = s.y.length)
    (hsort : List.insertionSort (tsKeyLe (-1)) series = s0 :: rest) :
    combine_ts true series
      = .ok ⟨(combineSpec s0.tmin rest).1 ++ s0.t,
             (combineSpec s0.tmin rest).2 ++ s0.y⟩ ∧
    List.Chain' (· < ·) ((combineSpec s0.tmin rest).1 ++ s0.t) := by
  have hmem : ∀ s ∈ s0 :: rest, s ∈ series := by
    intro s hs
    rw [← hsort] at hs
    exact (List.perm_insertionSort (tsKeyLe (-1)) series).subset hs
  obtain ⟨hch0, hne0, _⟩ := hwf s0 (hmem s0 (List.mem_cons_self s0 rest))
  have hwfr : ∀ s ∈ rest,
      List.Chain' (· < ·) s.t ∧ s.t ≠ [] ∧ s.t.length = s.y.length :=
    fun s hs => hwf s (hmem s (List.mem_cons_of_mem s0 hs))
  obtain ⟨hcs, hcb⟩ := combineSpec_chain rest s0.tmin (fun s hs => (hwfr s hs).1)
  have hchainT : List.Chain' (· < ·) ((combineSpec s0.tmin rest).1 ++ s0.t) := by
    rw [List.chain'_iff_pairwise, List.pairwise_append]
    refine ⟨List.chain'_iff_pairwise.mp hcs, List.chain'_iff_pairwise.mp hch0, ?_⟩
    intro x hx z hz
    exact lt_of_lt_of_le (hcb x hx) (headD_le_mem hch0 z hz)
  refine ⟨?_, hchainT⟩
  rw [combine_ts_true_sorted series s0 rest hsort]
  have hne0r : s0.t.reverse ≠ [] := by
    simpa using hne0
  rw [combineAux_eq_combineSpec rest s0.t.reverse s0.y.reverse hwfr hne0r]
  rw [getLastD_reverse]
  rw [show s0.t.headD 0 = s0.tmin from rfl]
  dsimp only
  simp only [List.reverse_append, List.reverse_reverse]
  exact mkTimeSeries_ok_of_chain _ hchainT

/-- C3 (counterexample).  With `t1 = [1, 2, 10]` and `t2 = [2, 3, 4]`,
`combine_ts` with `prefer_late = true` returns the times `[1, 2, 3, 4]`:
the first series' sample at `t = 10` lies strictly beyond the second
series' `tmax = 4`, so it overlaps nothing, yet it is dropped from the
result — the non-overlapping stretch of the earlier series past the
later series' end is not preserved, refuting the claim as stated. -/
theorem combine_ts_drops_nonoverlap :
    combine_ts true [⟨[1, 2, 10], [5, 6, 7]⟩, ⟨[2, 3, 4], [8, 9, 11]⟩]
      = .ok ⟨[1, 2, 3, 4], [5, 8, 9, 11]⟩ ∧
    (⟨[2, 3, 4], [8, 9, 11]⟩ : TimeSeries).tmax < 10 ∧
    (10 : ℚ) ∈ ([1, 2, 10] : List ℚ) ∧ (10 : ℚ) ∉ ([1, 2, 3, 4] : List ℚ) := by
  have hnr : ¬ tsKeyLe (-1) (⟨[1, 2, 10], [5, 6, 7]⟩ : TimeSeries)
      ⟨[2, 3, 4], [8, 9, 11]⟩ := by
    rw [tsKeyLe_neg_iff]
    norm_num [TimeSeries.tmin, TimeSeries.tmax, List.getLastD, List.headD]
  have hsort := insertionSort_pair_neg (⟨[1, 2, 10], [5, 6, 7]⟩ : TimeSeries)
    ⟨[2, 3, 4], [8, 9, 11]⟩ hnr
  refine ⟨?_, by norm_num [TimeSeries.tmax, List.getLastD],
    by norm_num, by norm_num⟩
  rw [combine_ts_true_eq _ ⟨[2, 3, 4], [8, 9, 11]⟩ ⟨[1, 2, 10], [5, 6, 7]⟩ hsort]
  norm_num [applyMask, List.getLastD, mkTimeSeries, diffs]

/-- C8.  `combine_ts` tie-break: two series sharing `tmin` with different
`tmax` — in either input order, the longer series wins the entire overlap
and the shorter contributes no samples at all: the result is exactly the
longer series. -/
theorem combine_ts_tie_break (t1 y1 t2 y2 : List ℚ)
    (h1 : List.Chain' (· < ·) t1) (h2 : List.Chain' (· < ·) t2)
    (_hne1 : t1 ≠ []) (_hne2 : t2 ≠ [])
    (_hl1 : t1.length = y1.length) (_hl2 : t2.length = y2.length)
    (hmin : t1.headD 0 = t2.headD 0)
    (hmax : t1.getLastD 0 < t2.getLastD 0) :
    combine_ts true [⟨t1, y1⟩, ⟨t2, y2⟩] = .ok ⟨t2, y2⟩ ∧
    combine_ts true [⟨t2, y2⟩, ⟨t1, y1⟩] = .ok ⟨t2, y2⟩ := by
  have hmain : ∀ series : List TimeSeries,
      List.insertionSort (tsKeyLe (-1)) series = [⟨t2, y2⟩, ⟨t1, y1⟩] →
      combine_ts true series = .ok ⟨t2, y2⟩ := by
    intro series hsort
    rw [combine_ts_true_eq series ⟨t2, y2⟩ ⟨t1, y1⟩ hsort]
    dsimp only
    rw [getLastD_reverse]
    have hfalse : ∀ x ∈ t1.reverse,
        (fun x => decide (x < t2.headD 0)) x = false := by
      intro x hx
      rw [decide_eq_false_iff_not, not_lt, ← hmin]
      exact headD_le_mem h1 x (List.mem_reverse.mp hx)
    rw [applyMask_all_false _ t1.reverse t1.reverse hfalse,
      applyMask_all_false _ t1.reverse y1.reverse hfalse,
      List.append_nil, List.append_nil, List.reverse_reverse,
      List.reverse_reverse]
    exact mkTimeSeries_ok_of_chain y2 h2
  constructor
  · apply hmain
    apply insertionSort_pair_neg
    rw [tsKeyLe_neg_iff, not_or]
    constructor
    · dsimp only [TimeSeries.tmin]
      rw [hmin]
      exact lt_irrefl _
    · rintro ⟨_, hle⟩
      exact absurd hmax (not_lt.mpr hle)
  · apply hmain
    apply insertionSort_pair_pos
    rw [tsKeyLe_neg_iff]
    right
    exact ⟨hmin.symm, hmax.le⟩

/-- Closed instance of `combine_ts_spec` at the spec's example:
`t1 = [1,2,3]`, `t2 = [2,3,4]` combine to times `[1,2,3,4]` with the
values over `[2,3]` taken from the second series. -/
theorem combine_ts_spec_witness :
    combine_ts true [⟨[1, 2, 3], [10, 20, 30]⟩, ⟨[2, 3, 4], [21, 31, 41]⟩]
      = .ok ⟨[1, 2, 3, 4], [10, 21, 31, 41]⟩ := by
  have hwf : ∀ s ∈ ([⟨[1, 2, 3], [10, 20, 30]⟩,
      ⟨[2, 3, 4], [21, 31, 41]⟩] : List TimeSeries),
      List.Chain' (· < ·) s.t ∧ s.t ≠ [] ∧ s.t.length = s.y.length := by
    intro s hs
    rcases List.mem_cons.mp hs with rfl | hs'
    · exact ⟨by norm_num [List.chain'_cons, List.chain'_singleton], by simp, rfl⟩
    · rcases List.mem_cons.mp hs' with rfl | hs''
      · exact ⟨by norm_num [List.chain'_cons, List.chain'_singleton], by simp, rfl⟩
      · cases hs''
  have hnr : ¬ tsKeyLe (-1) (⟨[1, 2, 3], [10, 20, 30]⟩ : TimeSeries)
      ⟨[2, 3, 4], [21, 31, 41]⟩ := by
    rw [tsKeyLe_neg_iff]
    norm_num [TimeSeries.tmin, TimeSeries.tmax, List.getLastD, List.headD]
  have hsort := insertionSort_pair_neg (⟨[1, 2, 3], [10, 20, 30]⟩ : TimeSeries)
    ⟨[2, 3, 4], [21, 31, 41]⟩ hnr
  have h := (combine_ts_spec _ ⟨[2, 3, 4], [21, 31, 41]⟩
    [⟨[1, 2, 3], [10, 20, 30]⟩] hwf hsort).1
  rw [h]
  norm_num [combineSpec, applyMask, TimeSeries.tmin, List.filter, List.headD]

/-- Closed instance of `combine_ts_tie_break`: equal starts, the longer
series is returned unchanged. -/
theorem combine_ts_tie_break_witness :
    combine_ts true [⟨[1, 2], [10, 20]⟩, ⟨[1, 2, 3], [11, 21, 31]⟩]
      = .ok ⟨[1, 2, 3], [11, 21, 31]⟩ := by
  exact (combine_ts_tie_break [1, 2] [10, 20] [1, 2, 3] [11, 21, 31]
    (by norm_num [List.chain'_cons, List.chain'_singleton])
    (by norm_num [List.chain'_cons, List.chain'_singleton])
    (by simp) (by simp) rfl rfl
    (by norm_num) (by norm_num [List.getLastD])).1

/-! ### C4: phase unwrapping -/

theorem rint_int_add (m : ℤ) {x : ℝ} (hx : |x| < 1 / 2) :
    rint ((m : ℝ) + x) = m := by
  obtain ⟨hx1, hx2⟩ := abs_lt.mp hx
  unfold rint
  dsimp only
  rw [Int.floor_int_add]
  rcases le_or_lt 0 x with hx0 | hx0
  · have hfl : ⌊x⌋ = 0 := Int.floor_eq_zero_iff.mpr ⟨hx0, by linarith⟩
    rw [hfl, add_zero]
    rw [if_pos]
    linarith
  · have hfl : ⌊x⌋ = -1 := by
      rw [Int.floor_eq_iff]
      constructor
      · push_cast; linarith
      · push_cast; linarith
    rw [hfl]
    rw [if_neg, if_pos]
    · ring
    · push_cast; linarith
    · push_cast; linarith

theorem cumsumAux_length : ∀ (l : List ℤ) (c : ℤ),
    (cumsumAux c l).length = l.length := by
  intro l
  induction l with
  | nil => intro c; rfl
  | cons a l ih => intro c; simp [cumsumAux, ih]

theorem getD_map (f : ℝ → ℝ) (d1 d2 : ℝ) : ∀ (l : List ℝ) (i : ℕ),
    i < l.length → (l.map f).getD i d1 = f (l.getD i d2) := by
  intro l
  induction l with
  | nil => intro i hi; simp at hi
  | cons a l ih =>
    intro i hi
    cases i with
    | zero => rfl
    | succ j =>
      rw [List.map_cons, List.getD_cons_succ, List.getD_cons_succ]
      exact ih j (by simpa using hi)

theorem getD_zipWith {α β γ : Type} (f : α → β → γ) (d1 : α) (d2 : β) (d3 : γ) :
    ∀ (l1 : List α) (l2 : List β) (i : ℕ), i < l1.length → i < l2.length →
    (List.zipWith f l1 l2).getD i d3 = f (l1.getD i d1) (l2.getD i d2) := by
  intro l1
  induction l1 with
  | nil => intro l2 i hi _; simp at hi
  | cons a l1' ih =>
    intro l2 i hi1 hi2
    cases l2 with
    | nil => simp at hi2
    | cons b l2' =>
      cases i with
      | zero => rfl
      | succ j =>
        rw [List.zipWith_cons_cons, List.getD_cons_succ, List.getD_cons_succ,
          List.getD_cons_succ]
        exact ih l2' j (by simpa using hi1) (by simpa using hi2)

theorem cumsumAux_getD : ∀ (l : List ℤ) (c : ℤ) (i : ℕ), i < l.length →
    (cumsumAux c l).getD i 0 = c + ∑ j in Finset.range (i + 1), l.getD j 0 := by
  intro l
  induction l with
  | nil => intro c i hi; simp at hi
  | cons a l ih =>
    intro c i hi
    cases i with
    | zero =>
      rw [show cumsumAux c (a :: l) = (c + a) :: cumsumAux (c + a) l from rfl,
        List.getD_cons_zero, Finset.sum_range_one, List.getD_cons_zero]
    | succ j =>
      rw [show cumsumAux c (a :: l) = (c + a) :: cumsumAux (c + a) l from rfl,
        List.getD_cons_succ, ih (c + a) j (by simpa using hi)]
      conv_rhs => rw [Finset.sum_range_succ']
      simp only [List.getD_cons_succ, List.getD_cons_zero]
      ring

theorem windOf_length {α : Type} [LinearOrderedField α] [FloorRing α]
    [DecidableRel ((· < ·) : α → α → Prop)] (nph : List α) :
    (windOf nph).length = nph.length := by
  cases nph with
  | nil => rfl
  | cons a l =>
    simp [windOf]

theorem windOf_getD_succ {α : Type} [LinearOrderedField α] [FloorRing α]
    [DecidableRel ((· < ·) : α → α → Prop)] (nph : List α) (j : ℕ)
    (hj : j + 1 < nph.length) :
    (windOf nph).getD (j + 1) 0 = rint (nph.getD j 0 - nph.getD (j + 1) 0) := by
  cases nph with
  | nil => simp at hj
  | cons a l =>
    rw [show windOf (a :: l)
        = 0 :: List.zipWith (fun x z => rint (x - z)) (a :: l) l from rfl,
      List.getD_cons_succ]
    have hj2 : j < l.length := by simpa using hj
    have hj1 : j < (a :: l).length := by simp; omega
    rw [getD_zipWith _ 0 0 0 (a :: l) l j hj1 hj2, List.getD_cons_succ]

theorem cumsum_length (l : List ℤ) : (cumsum l).length = l.length :=
  cumsumAux_length l 0

theorem cumsum_getD (l : List ℤ) (i : ℕ) (hi : i < l.length) :
    (cumsum l).getD i 0 = ∑ j in Finset.range (i + 1), l.getD j 0 := by
  rw [show cumsum l = cumsumAux 0 l from rfl, cumsumAux_getD l 0 i hi, zero_add]

theorem unfold_phase_getD (phase : List ℝ) (i : ℕ) (hi : i < phase.length) :
    (unfold_phase phase).getD i 0
      = phase.getD i 0 + 2 * Real.pi *
        ((∑ j in Finset.range i,
          rint ((phase.getD j 0 - phase.getD (j + 1) 0) / (2 * Real.pi)) : ℤ) : ℝ) := by
  unfold unfold_phase unfold_phase_gen
  dsimp only
  have hlnph : (phase.map (· / (2 * Real.pi))).length = phase.length := by simp
  have hlw : (windOf (phase.map (· / (2 * Real.pi)))).length = phase.length := by
    rw [windOf_length, hlnph]
  rw [getD_zipWith _ 0 0 0 phase _ i hi
    (by rw [cumsum_length, hlw]; exact hi)]
  have hsum : (cumsum (windOf (phase.map (· / (2 * Real.pi))))).getD i 0
      = ∑ j in Finset.range i,
        rint ((phase.getD j 0 - phase.getD (j + 1) 0) / (2 * Real.pi)) := by
    rw [cumsum_getD _ i (by rw [hlw]; exact hi)]
    rw [Finset.sum_range_succ']
    have h0 : (windOf (phase.map (· / (2 * Real.pi)))).getD 0 0 = 0 := by
      cases phase with
      | nil => simp at hi
      | cons p0 prest => rfl
    rw [h0, add_zero]
    apply Finset.sum_congr rfl
    intro j hj
    have hji : j < i := Finset.mem_range.mp hj
    have hj1 : j + 1 < (phase.map (· / (2 * Real.pi))).length := by
      rw [hlnph]; omega
    rw [windOf_getD_succ _ j hj1]
    rw [getD_map _ 0 0 phase j (by omega), getD_map _ 0 0 phase (j + 1) (by omega)]
    rw [div_sub_div_same]
  rw [hsum]

/-- C4.  `unfold_phase`: for every phase array the output equals
`phase + 2π · cumsum(rint((phase[i-1] - phase[i]) / 2π))` with winding
number 0 at index 0 (so `output[0] = phase[0]`, the `i = 0` instance of
the formula); and when `phase` is a continuous ramp `r` wrapped by
integer multiples of `2π` (`phase[i] = r[i] - 2π·k[i]`) whose adjacent
ramp increments are strictly below `π` in absolute value, the output
reconstructs the ramp up to the additive constant `2π·k[0]` fixed at
index 0.  (For ramp steps of size `π` or more the reconstruction can
fail even when the wrap is by exactly one multiple of `2π` per step; see
the counterexample.) -/
theorem unfold_phase_spec (phase r : List ℝ) (k : List ℤ)
    (hlr : phase.length = r.length) (hlk : r.length = k.length)
    (hphase : ∀ i, i < phase.length →
      phase.getD i 0 = r.getD i 0 - 2 * Real.pi * (k.getD i 0 : ℝ))
    (hjump : ∀ i, i + 1 < phase.length →
      |r.getD (i + 1) 0 - r.getD i 0| < Real.pi) :
    (∀ (q : List ℝ) (i : ℕ), i < q.length → (unfold_phase q).getD i 0
        = q.getD i 0 + 2 * Real.pi *
          ((∑ j in Finset.range i,
            rint ((q.getD j 0 - q.getD (j + 1) 0) / (2 * Real.pi)) : ℤ) : ℝ)) ∧
    (∀ i, i < phase.length → (unfold_phase phase).getD i 0
        = r.getD i 0 - 2 * Real.pi * (k.getD 0 0 : ℝ)) := by
  have h2pi : (0 : ℝ) < 2 * Real.pi := by positivity
  refine ⟨fun q i hi => unfold_phase_getD q i hi, ?_⟩
  intro i hi
  rw [unfold_phase_getD phase i hi]
  have hsum2 : ∑ j in Finset.range i,
      rint ((phase.getD j 0 - phase.getD (j + 1) 0) / (2 * Real.pi))
      = k.getD i 0 - k.getD 0 0 := by
    have hcong : ∀ j ∈ Finset.range i,
        rint ((phase.getD j 0 - phase.getD (j + 1) 0) / (2 * Real.pi))
          = k.getD (j + 1) 0 - k.getD j 0 := by
      intro j hj
      have hji : j < i := Finset.mem_range.mp hj
      have hjb : j < phase.length := by omega
      have hjb1 : j + 1 < phase.length := by omega
      have harg : (phase.getD j 0 - phase.getD (j + 1) 0) / (2 * Real.pi)
          = ((k.getD (j + 1) 0 - k.getD j 0 : ℤ) : ℝ)
            + (r.getD j 0 - r.getD (j + 1) 0) / (2 * Real.pi) := by
        rw [hphase j hjb, hphase (j + 1) hjb1]
        push_cast
        field_simp
        ring
      rw [harg]
      apply rint_int_add
      rw [abs_div, abs_of_pos h2pi, div_lt_iff₀ h2pi]
      have hj' := hjump j hjb1
      rw [abs_sub_comm] at hj'
      have hpi : (1 : ℝ) / 2 * (2 * Real.pi) = Real.pi := by ring
      linarith
    rw [Finset.sum_congr rfl hcong, Finset.sum_range_sub (fun j => k.getD j 0)]
  rw [hsum2, hphase i hi]
  push_cast
  ring

/-- Closed instance of `unfold_phase_spec` on the constant zero ramp. -/
theorem unfold_phase_witness : (unfold_phase [(0 : ℝ), 0]).getD 1 0 = 0 := by
  have h := (unfold_phase_spec [(0 : ℝ), 0] [0, 0] [0, 0] rfl rfl
      (by
        intro i hi
        simp only [List.length_cons, List.length_nil] at hi
        interval_cases i <;> norm_num [List.getD])
      (by
        intro i hi
        simp only [List.length_cons, List.length_nil] at hi
        have h0 : i = 0 := by omega
        subst h0
        norm_num [List.getD]
        exact Real.pi_pos)).2 1 (by norm_num)
  norm_num [List.getD] at h
  exact h

/-- C4 (counterexample).  The phase array `[0, -π/2]` is the wrap of the
continuous ramp `[0, 3π/2]` by exactly one multiple of `2π` at its
single step (winding numbers `[0, 1]`), and lies in the principal range
`(-π, π]`; yet `unfold_phase` leaves it unchanged, because the
normalised jump `(π/2)/(2π) = 1/4` rounds to `0`.  So no integer
constant `c` makes the output equal the ramp minus `2π·c`: the
reconstruction claimed for one-multiple-per-step wraps fails once a ramp
increment reaches `π`. -/
theorem unfold_phase_counterexample :
    ((0 : ℝ) = 0 - 2 * Real.pi * ((0 : ℤ) : ℝ) ∧
      -(Real.pi / 2) = 3 * Real.pi / 2 - 2 * Real.pi * ((1 : ℤ) : ℝ)) ∧
    (-Real.pi < -(Real.pi / 2) ∧ -(Real.pi / 2) ≤ Real.pi) ∧
    (unfold_phase [0, -(Real.pi / 2)]).getD 0 0 = 0 ∧
    (unfold_phase [0, -(Real.pi / 2)]).getD 1 0 = -(Real.pi / 2) ∧
    ¬ ∃ c : ℤ, (unfold_phase [0, -(Real.pi / 2)]).getD 0 0
          = 0 - 2 * Real.pi * (c : ℝ) ∧
        (unfold_phase [0, -(Real.pi / 2)]).getD 1 0
          = 3 * Real.pi / 2 - 2 * Real.pi * (c : ℝ) := by
  have hpi := Real.pi_pos
  have h0 : (unfold_phase [0, -(Real.pi / 2)]).getD 0 0 = 0 := by
    rw [unfold_phase_getD [0, -(Real.pi / 2)] 0 (by norm_num)]
    norm_num [List.getD]
  have h1 : (unfold_phase [0, -(Real.pi / 2)]).getD 1 0 = -(Real.pi / 2) := by
    rw [unfold_phase_getD [0, -(Real.pi / 2)] 1 (by norm_num)]
    have harg : (([0, -(Real.pi / 2)] : List ℝ).getD 0 0
        - ([0, -(Real.pi / 2)] : List ℝ).getD 1 0) / (2 * Real.pi)
        = ((0 : ℤ) : ℝ) + 1 / 4 := by
      have hpne : Real.pi ≠ 0 := Real.pi_ne_zero
      show ((0 : ℝ) - -(Real.pi / 2)) / (2 * Real.pi) = ((0 : ℤ) : ℝ) + 1 / 4
      push_cast
      field_simp
      ring
    rw [Finset.sum_range_one, harg,
      rint_int_add 0 (by rw [abs_lt]; constructor <;> norm_num)]
    norm_num [List.getD]
  refine ⟨⟨by push_cast; ring, by push_cast; ring⟩,
    ⟨by linarith, by linarith⟩, h0, h1, ?_⟩
  rintro ⟨c, hc0, hc1⟩
  rw [h0] at hc0
  rw [h1] at hc1
  have hc : (c : ℝ) = 0 := by
    have h3 : 2 * Real.pi * (c : ℝ) = 0 := by linarith
    rcases mul_eq_zero.mp h3 with h4 | h4
    · exact absurd h4 (by positivity)
    · exact h4
  rw [hc, mul_zero, sub_zero] at hc1
  linarith

/-! ### C7: sample_common shares one regular grid over the common domain -/

theorem pickMaxTmin_mem : ∀ (rest : List TimeSeries) (acc : TimeSeries),
    pickMaxTmin acc rest ∈ acc :: rest := by
  intro rest
  induction rest with
  | nil => intro acc; exact List.mem_cons_self acc []
  | cons s rest ih =>
    intro acc
    rw [show pickMaxTmin acc (s :: rest)
        = pickMaxTmin (if acc.tmin < s.tmin then s else acc) rest from rfl]
    rcases List.mem_cons.mp (ih (if acc.tmin < s.tmin then s else acc)) with he | hm
    · rw [he]
      by_cases hc : acc.tmin < s.tmin
      · rw [if_pos hc]
        exact List.mem_cons_of_mem acc (List.mem_cons_self s rest)
      · rw [if_neg hc]
        exact List.mem_cons_self acc (s :: rest)
    · exact List.mem_cons_of_mem acc (List.mem_cons_of_mem s hm)

theorem pickMinTmax_mem : ∀ (rest : List TimeSeries) (acc : TimeSeries),
    pickMinTmax acc rest ∈ acc :: rest := by
  intro rest
  induction rest with
  | nil => intro acc; exact List.mem_cons_self acc []
  | cons s rest ih =>
    intro acc
    rw [show pickMinTmax acc (s :: rest)
        = pickMinTmax (if s.tmax < acc.tmax then s else acc) rest from rfl]
    rcases List.mem_cons.mp (ih (if s.tmax < acc.tmax then s else acc)) with he | hm
    · rw [he]
      by_cases hc : s.tmax < acc.tmax
      · rw [if_pos hc]
        exact List.mem_cons_of_mem acc (List.mem_cons_self s rest)
      · rw [if_neg hc]
        exact List.mem_cons_self acc (s :: rest)
    · exact List.mem_cons_of_mem acc (List.mem_cons_of_mem s hm)

theorem pickMinLen_mem : ∀ (rest : List TimeSeries) (acc : TimeSeries),
    pickMinLen acc rest ∈ acc :: rest := by
  intro rest
  induction rest with
  | nil => intro acc; exact List.mem_cons_self acc []
  | cons s rest ih =>
    intro acc
    rw [show pickMinLen acc (s :: rest)
        = pickMinLen (if s.t.length < acc.t.length then s else acc) rest from rfl]
    rcases List.mem_cons.mp (ih (if s.t.length < acc.t.length then s else acc))
      with he | hm
    · rw [he]
      by_cases hc : s.t.length < acc.t.length
      · rw [if_pos hc]
        exact List.mem_cons_of_mem acc (List.mem_cons_self s rest)
      · rw [if_neg hc]
        exact List.mem_cons_self acc (s :: rest)
    · exact List.mem_cons_of_mem acc (List.mem_cons_of_mem s hm)

theorem pickMaxTmin_le : ∀ (rest : List TimeSeries) (acc : TimeSeries),
    ∀ s ∈ acc :: rest, s.tmin ≤ (pickMaxTmin acc rest).tmin := by
  intro rest
  induction rest with
  | nil =>
    intro acc s hs
    rcases List.mem_cons.mp hs with he | hm
    · rw [he]; exact le_refl _
    · cases hm
  | cons x rest ih =>
    intro acc s hs
    rw [show pickMaxTmin acc (x :: rest)
        = pickMaxTmin (if acc.tmin < x.tmin then x else acc) rest from rfl]
    have hacc : acc.tmin ≤ (if acc.tmin < x.tmin then x else acc).tmin := by
      by_cases hc : acc.tmin < x.tmin
      · rw [if_pos hc]; exact le_of_lt hc
      · rw [if_neg hc]
    have hx : x.tmin ≤ (if acc.tmin < x.tmin then x else acc).tmin := by
      by_cases hc : acc.tmin < x.tmin
      · rw [if_pos hc]
      · rw [if_neg hc]; exact not_lt.mp hc
    have hhead := ih (if acc.tmin < x.tmin then x else acc) _
      (List.mem_cons_self _ rest)
    rcases List.mem_cons.mp hs with he | hm
    · rw [he]; exact le_trans hacc hhead
    · rcases List.mem_cons.mp hm with he' | hm'
      · rw [he']; exact le_trans hx hhead
      · exact ih _ s (List.mem_cons_of_mem _ hm')

theorem pickMinTmax_le : ∀ (rest : List TimeSeries) (acc : TimeSeries),
    ∀ s ∈ acc :: rest, (pickMinTmax acc rest).tmax ≤ s.tmax := by
  intro rest
  induction rest with
  | nil =>
    intro acc s hs
    rcases List.mem_cons.mp hs with he | hm
    · rw [he]; exact le_refl _
    · cases hm
  | cons x rest ih =>
    intro acc s hs
    rw [show pickMinTmax acc (x :: rest)
        = pickMinTmax (if x.tmax < acc.tmax then x else acc) rest from rfl]
    have hacc : (if x.tmax < acc.tmax then x else acc).tmax ≤ acc.tmax := by
      by_cases hc : x.tmax < acc.tmax
      · rw [if_pos hc]; exact le_of_lt hc
      · rw [if_neg hc]
    have hx : (if x.tmax < acc.tmax then x else acc).tmax ≤ x.tmax := by
      by_cases hc : x.tmax < acc.tmax
      · rw [if_pos hc]
      · rw [if_neg hc]; exact not_lt.mp hc
    have hhead := ih (if x.tmax < acc.tmax then x else acc) _
      (List.mem_cons_self _ rest)
    rcases List.mem_cons.mp hs with he | hm
    · rw [he]; exact le_trans hhead hacc
    · rcases List.mem_cons.mp hm with he' | hm'
      · rw [he']; exact le_trans hhead hx
      · exact ih _ s (List.mem_cons_of_mem _ hm')

theorem linspace_two_plus (a b : ℚ) (m : ℕ) :
    linspace a b (m + 2)
      = (List.range (m + 2)).map
          (fun i : ℕ => a + (i : ℚ) * ((b - a) / ((m : ℚ) + 1))) := by
  show (List.range (m + 2)).map
      (fun i : ℕ => a + (i : ℚ) * (b - a) / (((m + 2 : ℕ) : ℚ) - 1)) = _
  apply List.map_congr_left
  intro i _
  rw [mul_div_assoc]
  push_cast
  ring

theorem linspace_chain (a b : ℚ) (hab : a < b) (n : ℕ) :
    List.Chain' (· < ·) (linspace a b n) := by
  rcases n with _ | _ | m
  · exact List.chain'_nil
  · exact List.chain'_singleton a
  · rw [linspace_two_plus]
    apply chain_lt_arith
    apply div_pos (sub_pos.mpr hab)
    positivity


theorem linspace_mem_bounds (a b : ℚ) (hab : a ≤ b) (n : ℕ) :
    ∀ x ∈ linspace a b n, a ≤ x ∧ x ≤ b := by
  rcases n with _ | _ | m
  · intro x hx; cases hx
  · intro x hx
    have he := List.mem_singleton.mp hx
    rw [he]
    exact ⟨le_refl a, hab⟩
  · rw [linspace_two_plus]
    intro x hx
    obtain ⟨k, hk, rfl⟩ := List.mem_map.mp hx
    have hk' : (k : ℚ) ≤ (m : ℚ) + 1 := by
      have hkr := List.mem_range.mp hk
      have : k ≤ m + 1 := by omega
      exact_mod_cast this
    have hm1 : (0 : ℚ) < (m : ℚ) + 1 := by positivity
    have hd : (0 : ℚ) ≤ (b - a) / ((m : ℚ) + 1) :=
      div_nonneg (sub_nonneg.mpr hab) hm1.le
    constructor
    · have : (0 : ℚ) ≤ (k : ℚ) * ((b - a) / ((m : ℚ) + 1)) :=
        mul_nonneg (by positivity) hd
      linarith
    · have hstep : (k : ℚ) * ((b - a) / ((m : ℚ) + 1))
          ≤ ((m : ℚ) + 1) * ((b - a) / ((m : ℚ) + 1)) :=
        mul_le_mul_of_nonneg_right hk' hd
      have hfull : ((m : ℚ) + 1) * ((b - a) / ((m : ℚ) + 1)) = b - a := by
        rw [mul_div_cancel₀]
        positivity
      linarith [hstep, hfull.le]

theorem linspace_cons (a b : ℚ) (n : ℕ) (hn : 1 ≤ n) :
    ∃ tl, linspace a b n = a :: tl := by
  rcases n with _ | _ | m
  · omega
  · exact ⟨[], rfl⟩
  · rw [linspace_two_plus, grid_cons]
    exact ⟨_, rfl⟩

theorem mapExcept_ok_mem {ε α β : Type} {f : α → Except ε β} :
    ∀ {l : List α} {res : List β}, mapExcept f l = .ok res →
    ∀ x ∈ l, ∃ yv, f x = .ok yv := by
  intro l
  induction l with
  | nil => intro res _ x hx; cases hx
  | cons a l ih =>
    intro res h x hx
    rcases hfa : f a with e | b
    · rw [show mapExcept f (a :: l)
          = Except.bind (f a) (fun b => Except.bind (mapExcept f l)
            (fun bs => Except.ok (b :: bs))) from rfl, hfa] at h
      cases h
    · rcases List.mem_cons.mp hx with he | hm
      · exact ⟨b, by rw [he]; exact hfa⟩
      · rcases hml : mapExcept f l with e | bs
        · rw [show mapExcept f (a :: l)
              = Except.bind (f a) (fun b => Except.bind (mapExcept f l)
                (fun bs => Except.ok (b :: bs))) from rfl, hfa, hml] at h
          cases h
        · exact ih hml x hm

/-- C7 (amended).  `sample_common`: for a non-empty list of well-formed
series with `max(tmin) < min(tmax)` (strict — with equality the shared
regular grid degenerates to repeated points and the validating
constructor rejects it, see the counterexample), the call succeeds and
every returned series carries the identical time array, namely the
regular grid of `min(length)` points spanning `[max(tmin), min(tmax)]`;
when `max(tmin) > min(tmax)` (no overlapping domain) the call is rejected
with an error rather than returning a series over a reversed interval. -/
theorem sample_common_spec (s0 : TimeSeries) (rest : List TimeSeries)
    (hwf : ∀ s ∈ s0 :: rest, List.Chain' (· < ·) s.t ∧ s.t ≠ []) :
    ((pickMaxTmin s0 rest).tmin < (pickMinTmax s0 rest).tmax →
      ∃ out, sample_common (s0 :: rest) = .ok out ∧
        ∀ res ∈ out, res.t = linspace (pickMaxTmin s0 rest).tmin
          (pickMinTmax s0 rest).tmax (pickMinLen s0 rest).t.length) ∧
    ((pickMinTmax s0 rest).tmax < (pickMaxTmin s0 rest).tmin →
      ∃ e, sample_common (s0 :: rest) = .error e) := by
  have hunfold : sample_common (s0 :: rest)
      = mapExcept (fun s => resampled s (linspace (pickMaxTmin s0 rest).tmin
          (pickMinTmax s0 rest).tmax (pickMinLen s0 rest).t.length))
          (s0 :: rest) := rfl
  constructor
  · intro hab
    set a := (pickMaxTmin s0 rest).tmin with hadef
    set b := (pickMinTmax s0 rest).tmax with hbdef
    set n := (pickMinLen s0 rest).t.length with hndef
    have hch := linspace_chain a b hab n
    have hres : ∀ s ∈ s0 :: rest, (fun s => resampled s (linspace a b n)) s
        = .ok ((fun s => (⟨linspace a b n, (linspace a b n).map
            (fun x => interpPairs (s.t.zip s.y) x)⟩ : TimeSeries)) s) := by
      intro s hs
      refine resampled_ok hch ?_
      intro x hx
      obtain ⟨hax, hxb⟩ := linspace_mem_bounds a b hab.le n x hx
      exact ⟨le_trans (pickMaxTmin_le rest s0 s hs) hax,
             le_trans hxb (pickMinTmax_le rest s0 s hs)⟩
    rw [hunfold, mapExcept_ok_of_forall _ _ _ hres]
    refine ⟨_, rfl, ?_⟩
    intro res hres'
    obtain ⟨s, _, he⟩ := List.mem_map.mp hres'
    rw [← he]
  · intro hba
    set a := (pickMaxTmin s0 rest).tmin with hadef
    set b := (pickMinTmax s0 rest).tmax with hbdef
    set n := (pickMinLen s0 rest).t.length with hndef
    have hw : pickMinTmax s0 rest ∈ s0 :: rest := pickMinTmax_mem rest s0
    have hn1 : 1 ≤ n := by
      have hmem := pickMinLen_mem rest s0
      have hne := (hwf _ hmem).2
      rw [hndef]
      exact List.length_pos.mpr hne
    obtain ⟨tl, htl⟩ := linspace_cons a b n hn1
    have herr : resampled (pickMinTmax s0 rest) (linspace a b n)
        = .error (.valueError "Interpolation point outside the domain") := by
      rw [htl]
      have hia : interpAt (pickMinTmax s0 rest) a
          = .error (.valueError "Interpolation point outside the domain") := by
        unfold interpAt
        rw [if_pos]
        right
        exact hba
      show Except.bind (mapExcept (interpAt (pickMinTmax s0 rest)) (a :: tl))
          (fun vals => mkTimeSeries (a :: tl) vals) = _
      rw [show mapExcept (interpAt (pickMinTmax s0 rest)) (a :: tl)
          = Except.bind (interpAt (pickMinTmax s0 rest) a)
            (fun v => Except.bind
              (mapExcept (interpAt (pickMinTmax s0 rest)) tl)
              (fun vs => Except.ok (v :: vs))) from rfl, hia]
      rfl
    rcases hsc : sample_common (s0 :: rest) with e | out
    · exact ⟨e, rfl⟩
    · exfalso
      rw [hunfold] at hsc
      obtain ⟨yv, hyv⟩ := mapExcept_ok_mem hsc (pickMinTmax s0 rest) hw
      rw [herr] at hyv
      cases hyv

/-- Closed instance of `sample_common_spec`: two overlapping series are
resampled onto the shared grid `[1, 3/2, 2]`. -/
theorem sample_common_spec_witness :
    ∃ out, sample_common [⟨[0, 1, 2], [0, 0, 0]⟩, ⟨[1, 2, 3], [5, 6, 7]⟩]
        = .ok out ∧
      ∀ res ∈ out, res.t = [1, 3/2, 2] := by
  have h := (sample_common_spec ⟨[0, 1, 2], [0, 0, 0]⟩ [⟨[1, 2, 3], [5, 6, 7]⟩]
      (by
        intro s hs
        rcases List.mem_cons.mp hs with he | hs'
        · rw [he]
          exact ⟨by norm_num [List.chain'_cons, List.chain'_singleton], by simp⟩
        · have he' := List.mem_singleton.mp hs'
          rw [he']
          exact ⟨by norm_num [List.chain'_cons, List.chain'_singleton],
            by simp⟩)).1
      (by norm_num [pickMaxTmin, pickMinTmax, TimeSeries.tmin, TimeSeries.tmax,
        List.getLastD])
  obtain ⟨out, h1, h2⟩ := h
  refine ⟨out, h1, ?_⟩
  intro res hres
  rw [h2 res hres]
  norm_num [linspace, pickMinLen, pickMaxTmin, pickMinTmax, TimeSeries.tmin,
    TimeSeries.tmax, List.getLastD, List.range_succ]
